import Mathlib

/-!
# Container-ID detection and numeric coercion helpers of dd-trace-go

A shallow embedding of `ddtrace/tracer/util.go` and `internal/container.go`.

* Text is a list of Unicode code points (`List Char`), which is what the regexp
  engine of the Go standard library iterates over on valid UTF-8 input.
* A cgroup file is given by its lines, the texts between line feeds, or is absent
  when `os.Open` fails.  `bufio.Scanner` hands the lines to the loop body without
  their final carriage return (`scn.Text()` for each successful `scn.Scan()`), and
  stops at the first line that does not fit in its buffer of 64 KiB.
* The two regular expressions are values of a small syntax, run by a backtracking
  matcher that explores alternatives in priority order; its first success at the
  leftmost starting position is the match that `regexp` reports.
* Machine integers are mathematical integers with explicit bounds and explicit
  reduction modulo `2 ^ 64` where the source can wrap around.
* A floating-point value is an IEEE 754 datum given by sign, mantissa and exponent;
  the conversion of an integer to `float64` rounds to 53 bits, ties to even.
* `strconv.ParseUint`, `strconv.ParseInt` and `strconv.FormatUint` are written after
  the Go standard library, for base 10 and 64 bits, with their result pairs
  `(value, error)`.
-/

namespace Regexp

/-- Syntax of the regular expressions that occur in the two source files. -/
inductive Re where
  /-- the empty expression -/
  | empty : Re
  /-- one code point of a character class -/
  | cls : (Char → Bool) → Re
  /-- concatenation -/
  | seq : Re → Re → Re
  /-- alternation, preferring the left branch -/
  | alt : Re → Re → Re
  /-- greedy repetition (zero or more) of a character class -/
  | star : (Char → Bool) → Re
  /-- the anchor at the beginning of the text (no multi-line flag) -/
  | bot : Re
  /-- the anchor at the end of the text (no multi-line flag) -/
  | eot : Re
  /-- capturing group with its index -/
  | cap : Nat → Re → Re

/-- Position of the matcher: number of code points before it, and the text after it. -/
structure Pos where
  before : Nat
  rest : List Char
deriving DecidableEq, Repr

/-- Texts of the capturing groups closed so far, by group index. -/
abbrev Caps := List (Nat × List Char)

/-- Continuation of a backtracking match. -/
abbrev K (β : Type) := Pos → Caps → Option β

/-- First success of two alternatives tried in order. -/
def first {β : Type} (x y : Option β) : Option β :=
  match x with
  | some v => some v
  | none => y

/-- Greedy repetition of a class: take one more code point if possible, and only
when the continuation fails after that, stop here. -/
def greedyStar {β : Type} (p : Char → Bool) (k : K β) : Nat → List Char → Caps → Option β
  | n, [], caps => k ⟨n, []⟩ caps
  | n, c :: cs, caps =>
    if p c then first (greedyStar p k (n + 1) cs caps) (k ⟨n, c :: cs⟩ caps)
    else k ⟨n, c :: cs⟩ caps

/-- Backtracking matcher: alternatives are explored in the priority order of
the expression, so the first success is the leftmost-first match at the
starting position. -/
def Re.run {β : Type} : Re → K β → K β
  | .empty => fun k => k
  | .cls p => fun k s caps =>
    match s.rest with
    | [] => none
    | c :: cs => if p c then k ⟨s.before + 1, cs⟩ caps else none
  | .seq a b => fun k => a.run (b.run k)
  | .alt a b => fun k s caps => first (a.run k s caps) (b.run k s caps)
  | .star p => fun k s caps => greedyStar p k s.before s.rest caps
  | .bot => fun k s caps => if s.before = 0 then k s caps else none
  | .eot => fun k s caps => if s.rest = [] then k s caps else none
  | .cap i a => fun k s caps =>
    a.run (fun s1 caps1 => k s1 (caps1 ++ [(i, s.rest.take (s1.before - s.before))])) s caps

/-- Concatenation of a list of expressions. -/
def Re.cat : List Re → Re
  | [] => .empty
  | a :: as => .seq a (Re.cat as)

/-- Counted repetition `a{n}`. -/
def Re.rep : Nat → Re → Re
  | 0, _ => .empty
  | n + 1, a => .seq a (Re.rep n a)

/-- One or more, greedy: `p+` for a class. -/
def Re.plus (p : Char → Bool) : Re := .seq (.cls p) (.star p)

/-- Greedy option `a?`. -/
def Re.opt (a : Re) : Re := .alt a .empty

/-- A literal code point. -/
def Re.chr (c : Char) : Re := .cls (fun x => x == c)

/-- Number of capturing groups. -/
def Re.numSubexp : Re → Nat
  | .empty => 0
  | .cls _ => 0
  | .seq a b => a.numSubexp + b.numSubexp
  | .alt a b => a.numSubexp + b.numSubexp
  | .star _ => 0
  | .bot => 0
  | .eot => 0
  | .cap _ a => a.numSubexp + 1

/-- A match: its text and the captured groups. -/
structure Match where
  text : List Char
  caps : Caps
deriving DecidableEq, Repr

/-- Match attempt starting at one position of the text. -/
def matchAt (re : Re) (n : Nat) (s : List Char) : Option Match :=
  re.run (fun s1 caps => some ⟨s.take (s1.before - n), caps⟩) ⟨n, s⟩ []

/-- Unanchored search: the leftmost starting position that admits a match wins. -/
def findFrom (re : Re) : Nat → List Char → Option Match
  | n, [] => matchAt re n []
  | n, c :: cs =>
    match matchAt re n (c :: cs) with
    | some m => some m
    | none => findFrom re (n + 1) cs

/-- Text of the leftmost match, empty when there is none (`Regexp.FindString`). -/
def FindString (re : Re) (s : List Char) : List Char :=
  match findFrom re 0 s with
  | some m => m.text
  | none => []

/-- Text of a group, empty when the group did not take part in the match. -/
def groupText (caps : Caps) (i : Nat) : List Char :=
  match caps.lookup i with
  | some t => t
  | none => []

/-- Leftmost match with its groups: the empty slice when there is no match, else the
match followed by one entry per capturing group (`Regexp.FindStringSubmatch`). -/
def FindStringSubmatch (re : Re) (s : List Char) : List (List Char) :=
  match findFrom re 0 s with
  | some m => m.text :: (List.range re.numSubexp).map (fun i => groupText m.caps (i + 1))
  | none => []

end Regexp

open Regexp

/-- Class `\d`: ASCII decimal digits. -/
def isDigit (c : Char) : Bool := decide ('0' ≤ c) && decide (c ≤ '9')

/-- Class `[^:]`. -/
def notColon (c : Char) : Bool := c != ':'

/-- Class `.`: anything but a line feed. -/
def anyChar (c : Char) : Bool := c != '\n'

/-- Class `[0-9a-f]`. -/
def isHex (c : Char) : Bool :=
  (decide ('0' ≤ c) && decide (c ≤ '9')) || (decide ('a' ≤ c) && decide (c ≤ 'f'))

/-- Class `[-_]`. -/
def isDelim (c : Char) : Bool := c == '-' || c == '_'

/-- A file system as seen by `os.Open`: the lines of the file at a path, that is the
texts between its line feeds, or nothing when the file cannot be opened. -/
abbrev FS := String → Option (List (List Char))

/-- The constant `bufio.MaxScanTokenSize`, the size limit of the buffer of a scanner
made by `bufio.NewScanner`. -/
def maxScanTokenSize : Nat := 64 * 1024

/-- The number of bytes of the UTF-8 encoding of a text. -/
def utf8Len : List Char → Nat
  | [] => 0
  | c :: cs => c.utf8Size + utf8Len cs

/-- The function `dropCR` of `bufio`: the text without one final carriage return. -/
def dropCR (l : List Char) : List Char :=
  if l.getLast? = some '\r' then l.dropLast else l

/-- The tokens that a `bufio.Scanner` with the default split function `ScanLines` and
the default buffer hands out, one per successful `Scan`, on a file with the given
lines: each line without its final carriage return, up to the first line of
`maxScanTokenSize` bytes or more, which does not fit in the buffer with its line feed;
there `Scan` returns false (`ErrTooLong`) and the scan is over. -/
def scanTokens (lines : List (List Char)) : List (List Char) :=
  (lines.takeWhile (fun l => decide (utf8Len l < maxScanTokenSize))).map dropCR

namespace Internal

/-- The expression `^\d+:[^:]*:(.+)$` of `internal/container.go`. -/
def expLine : Re :=
  Re.cat [.bot, Re.plus isDigit, Re.chr ':', .star notColon, Re.chr ':',
    .cap 1 (Re.plus anyChar), .eot]

/-- The expression
`([0-9a-f]{8}[-_][0-9a-f]{4}[-_][0-9a-f]{4}[-_][0-9a-f]{4}[-_][0-9a-f]{12}|[0-9a-f]{64})(?:.scope)?$`
of `internal/container.go`. -/
def expContainerID : Re :=
  Re.cat [.cap 1 (.alt
      (Re.cat [Re.rep 8 (.cls isHex), .cls isDelim, Re.rep 4 (.cls isHex), .cls isDelim,
        Re.rep 4 (.cls isHex), .cls isDelim, Re.rep 4 (.cls isHex), .cls isDelim,
        Re.rep 12 (.cls isHex)])
      (Re.rep 64 (.cls isHex))),
    Re.opt (Re.cat [.cls anyChar, Re.chr 's', Re.chr 'c', Re.chr 'o', Re.chr 'p', Re.chr 'e']),
    .eot]

/-- The loop of `FindContainerID` over the tokens of the scanner. -/
def scanLoop : List (List Char) → List Char
  | [] => []
  | line :: rest =>
    let path := FindStringSubmatch expLine line
    if path.length != 2 then
      scanLoop rest
    else
      let id := FindString expContainerID (path.getD 1 [])
      if id != [] then id else scanLoop rest

/-- `FindContainerID` of `internal/container.go`, reading the package variable `cgroupPath`. -/
def FindContainerID (fs : FS) (cgroupPath : String) : List Char :=
  match fs cgroupPath with
  | some lines => scanLoop (scanTokens lines)
  | none => []

/-- The initial value of the package variable `cgroupPath`. -/
def cgroupPath : String := "/proc/self/cgroup"

end Internal

namespace Tracer

/-- The expression `^\d+:[^:]*:(.+)$` of `ddtrace/tracer/util.go`. -/
def expLine : Re :=
  Re.cat [.bot, Re.plus isDigit, Re.chr ':', .star notColon, Re.chr ':',
    .cap 1 (Re.plus anyChar), .eot]

/-- The expression
`([0-9a-f]{8}[-_][0-9a-f]{4}[-_][0-9a-f]{4}[-_][0-9a-f]{4}[-_][0-9a-f]{12}|[0-9a-f]{64})(?:.scope)?$`
of `ddtrace/tracer/util.go`. -/
def expContainerID : Re :=
  Re.cat [.cap 1 (.alt
      (Re.cat [Re.rep 8 (.cls isHex), .cls isDelim, Re.rep 4 (.cls isHex), .cls isDelim,
        Re.rep 4 (.cls isHex), .cls isDelim, Re.rep 4 (.cls isHex), .cls isDelim,
        Re.rep 12 (.cls isHex)])
      (Re.rep 64 (.cls isHex))),
    Re.opt (Re.cat [.cls anyChar, Re.chr 's', Re.chr 'c', Re.chr 'o', Re.chr 'p', Re.chr 'e']),
    .eot]

/-- The loop of `FindContainerID` over the tokens of the scanner. -/
def scanLoop : List (List Char) → List Char
  | [] => []
  | line :: rest =>
    let path := FindStringSubmatch expLine line
    if path.length != 2 then
      scanLoop rest
    else
      let id := FindString expContainerID (path.getD 1 [])
      if id != [] then id else scanLoop rest

/-- `FindContainerID` of `ddtrace/tracer/util.go`. -/
def FindContainerID (fs : FS) : List Char :=
  match fs "/proc/self/cgroup" with
  | some lines => scanLoop (scanTokens lines)
  | none => []

end Tracer

/-! ## Shapes of tokens -/

/-- The text consists of exactly one code point per class of the shape, in order. -/
def matchesShape : List (Char → Bool) → List Char → Bool
  | [], [] => true
  | p :: ps, c :: cs => p c && matchesShape ps cs
  | _, _ => false

/-- The text starts with one code point per class of the shape, in order. -/
def prefixShape : List (Char → Bool) → List Char → Bool
  | [], _ => true
  | p :: ps, c :: cs => p c && prefixShape ps cs
  | _ :: _, [] => false

/-- Shape of 64 lowercase hexadecimal characters. -/
def hex64Shape : List (Char → Bool) := List.replicate 64 isHex

/-- Shape of five lowercase hexadecimal groups of lengths 8-4-4-4-12, delimited by
a hyphen or an underscore. -/
def uuidShape : List (Char → Bool) :=
  List.replicate 8 isHex ++ [isDelim] ++ List.replicate 4 isHex ++ [isDelim] ++
  List.replicate 4 isHex ++ [isDelim] ++ List.replicate 4 isHex ++ [isDelim] ++
  List.replicate 12 isHex

/-- Shape of the optional suffix: any code point but a line feed, then `scope`. -/
def scopeShape : List (Char → Bool) :=
  [anyChar, fun x => x == 's', fun x => x == 'c', fun x => x == 'o', fun x => x == 'p',
    fun x => x == 'e']

/-- A container-ID token: UUID-like or 64 lowercase hexadecimal characters. -/
def isContainerID (t : List Char) : Bool := matchesShape uuidShape t || matchesShape hex64Shape t

/-- Closed form of a successful match attempt of `expContainerID` on the text `s`:
a container-ID shape, optionally followed by the suffix shape, covering all of `s`. -/
def endsID (s : List Char) : Bool :=
  (prefixShape uuidShape s &&
    (s.length == 36 || (s.length == 42 && prefixShape scopeShape (s.drop 36)))) ||
  (prefixShape hex64Shape s &&
    (s.length == 64 || (s.length == 70 && prefixShape scopeShape (s.drop 64))))

/-- The longest suffix of the text that satisfies `f`, empty when there is none. -/
def firstSuffix (f : List Char → Bool) : List Char → List Char
  | [] => []
  | c :: cs => if f (c :: cs) then c :: cs else firstSuffix f cs

/-- Closed form of the submatch of `expLine`: the text after the second colon of a
line that starts with decimal digits and a colon, has a colon-free second field, a
second colon, and a non-empty remainder free of line feeds. -/
def linePath (s : List Char) : Option (List Char) :=
  let r1 := s.dropWhile isDigit
  let r2 := (r1.drop 1).dropWhile notColon
  let r3 := r2.drop 1
  if (s.takeWhile isDigit != []) && r1.head? == some ':' && r2.head? == some ':' && r3 != [] &&
      r3.all anyChar then
    some r3
  else none

/-- The text ends in a container-ID token: one of its suffixes is a token. -/
def endsInToken (p : List Char) : Bool := p.tails.any isContainerID

/-- A container-ID token followed by one more character and the letters `scope`. -/
def isScopedToken (s : List Char) : Bool :=
  decide (6 ≤ s.length) && isContainerID (s.take (s.length - 6)) &&
    (s.drop (s.length - 5) == "scope".toList)

/-- The text ends in a container-ID token followed by one character and `scope`. -/
def endsInScopedToken (p : List Char) : Bool := p.tails.any isScopedToken

/-! ## Numeric coercion (`toFloat64`) -/

/-- An IEEE 754 binary floating-point datum, by value: a finite datum has a sign and
the magnitude `mant * 2 ^ exp`; the other data are the infinities and NaN.  Both
`float32` and `float64` values are data of this kind, so that widening a `float32`
to a `float64`, which is exact, keeps the datum. -/
inductive IEEE where
  | finite (neg : Bool) (mant : Nat) (exp : Int)
  | inf (neg : Bool)
  | nan
deriving DecidableEq, Repr

/-- The real value of a finite datum. -/
def IEEE.toRat : IEEE → Option ℚ
  | .finite neg mant exp => some ((if neg then -1 else 1) * (mant : ℚ) * (2 : ℚ) ^ exp)
  | .inf _ => none
  | .nan => none

/-- The float constant `0`. -/
def IEEE.zero : IEEE := .finite false 0 0

/-- The number of bits of `n`, counted by halving at most `fuel` times. -/
def bitLenAux : Nat → Nat → Nat
  | 0, _ => 0
  | fuel + 1, n => if n = 0 then 0 else bitLenAux fuel (n / 2) + 1

/-- The number of bits of a natural number (`bits.Len64`); `n` halvings always suffice. -/
def bitLen (n : Nat) : Nat := bitLenAux n n

/-- Rounding of a natural number to `prec` significant bits, to nearest and ties to
even: the result is `(m, e)` with value `m * 2 ^ e`. -/
def roundNearestEven (prec n : Nat) : Nat × Nat :=
  let shift := bitLen n - prec
  let q := n / 2 ^ shift
  let r := n % 2 ^ shift
  let q1 := if 2 * r > 2 ^ shift ∨ (2 * r = 2 ^ shift ∧ q % 2 = 1) then q + 1 else q
  if q1 = 2 ^ prec then (2 ^ (prec - 1), shift + 1) else (q1, shift)

/-- The conversion `float64(i)` of a non-negative integer with a sign: the value is
rounded to the 53 bits of precision of the destination type. -/
def float64OfNat (neg : Bool) (n : Nat) : IEEE :=
  .finite neg (roundNearestEven 53 n).1 (roundNearestEven 53 n).2

/-- The conversion `float64(i)` of a signed integer. -/
def float64OfInt (i : Int) : IEEE := float64OfNat (decide (i < 0)) i.natAbs

/-- The dynamic values that an `interface{}` argument can hold: the kinds named in
the type switch of `toFloat64`, and values of other dynamic types.  Integers carry
their mathematical value; `Value.InRange` states the bounds of each kind. -/
inductive Value where
  | byte (i : Nat)
  | float32 (i : IEEE)
  | float64 (i : IEEE)
  | int (i : Int)
  | int16 (i : Int)
  | int32 (i : Int)
  | int64 (i : Int)
  | uint (i : Nat)
  | uint16 (i : Nat)
  | uint32 (i : Nat)
  | uint64 (i : Nat)
  | int8 (i : Int)
  | string (s : String)
  | bool (b : Bool)
  | nil
  | other (typeName : String)
deriving DecidableEq, Repr

/-- Bounds of the integer kinds, `int` and `uint` being 64 bits wide. -/
def Value.InRange : Value → Prop
  | .byte i => i < 2 ^ 8
  | .int i => -2 ^ 63 ≤ i ∧ i < 2 ^ 63
  | .int16 i => -2 ^ 15 ≤ i ∧ i < 2 ^ 15
  | .int32 i => -2 ^ 31 ≤ i ∧ i < 2 ^ 31
  | .int64 i => -2 ^ 63 ≤ i ∧ i < 2 ^ 63
  | .uint i => i < 2 ^ 64
  | .uint16 i => i < 2 ^ 16
  | .uint32 i => i < 2 ^ 32
  | .uint64 i => i < 2 ^ 64
  | .int8 i => -2 ^ 7 ≤ i ∧ i < 2 ^ 7
  | _ => True

/-- The dynamic type is one of the cases of the type switch of `toFloat64`. -/
def Value.supported : Value → Bool
  | .byte _ => true
  | .float32 _ => true
  | .float64 _ => true
  | .int _ => true
  | .int16 _ => true
  | .int32 _ => true
  | .int64 _ => true
  | .uint _ => true
  | .uint16 _ => true
  | .uint32 _ => true
  | .uint64 _ => true
  | _ => false

/-- `toFloat64` of `ddtrace/tracer/util.go`. -/
def toFloat64 (value : Value) : IEEE × Bool :=
  let max : Int := ((1 <<< 53 : Nat) : Int) - 1
  let min : Int := -max
  match value with
  | .byte i => (float64OfNat false i, true)
  | .float32 i => (i, true)
  | .float64 i => (i, true)
  | .int i => (float64OfInt i, true)
  | .int16 i => (float64OfInt i, true)
  | .int32 i => (float64OfInt i, true)
  | .int64 i =>
    if i > max || i < min then (IEEE.zero, false)
    else (float64OfInt i, true)
  | .uint i => (float64OfNat false i, true)
  | .uint16 i => (float64OfNat false i, true)
  | .uint32 i => (float64OfNat false i, true)
  | .uint64 i =>
    if i > max.toNat % 2 ^ 64 then (IEEE.zero, false)
    else (float64OfNat false i, true)
  | _ => (IEEE.zero, false)

/-! ## Unsigned parsing (`parseUint64`) -/

namespace Strconv

/-- The two error values of the package, `ErrSyntax` and `ErrRange`. -/
inductive Err where
  | ErrSyntax
  | ErrRange
deriving DecidableEq, Repr

/-- A failed conversion (`strconv.NumError`). -/
structure NumError where
  Func : String
  Num : List Char
  Err : Err
deriving DecidableEq, Repr

/-- The digit value that `ParseUint` reads from one character: a decimal digit, or a
letter taken as a digit of value ten or more; nothing for any other character. -/
def digitOf (c : Char) : Option Nat :=
  if '0' ≤ c ∧ c ≤ '9' then some (c.toNat - '0'.toNat)
  else if 'a'.toNat ≤ (c.toNat ||| 0x20) ∧ (c.toNat ||| 0x20) ≤ 'z'.toNat then
    some ((c.toNat ||| 0x20) - 'a'.toNat + 10)
  else none

/-- The largest `uint64`. -/
def maxUint64 : Nat := 2 ^ 64 - 1

/-- The digit loop of `ParseUint` for base 10 and 64 bits, on the remaining
characters and the accumulated value; `s0` is the whole argument. -/
def parseUintLoop (s0 : List Char) : List Char → Nat → Nat × Option NumError
  | [], n => (n, none)
  | c :: cs, n =>
    match digitOf c with
    | none => (0, some ⟨"ParseUint", s0, .ErrSyntax⟩)
    | some d =>
      if d ≥ 10 then (0, some ⟨"ParseUint", s0, .ErrSyntax⟩)
      else if n ≥ maxUint64 / 10 + 1 then (maxUint64, some ⟨"ParseUint", s0, .ErrRange⟩)
      else
        let n10 := n * 10 % 2 ^ 64
        let n1 := (n10 + d) % 2 ^ 64
        if n1 < n10 ∨ n1 > maxUint64 then (maxUint64, some ⟨"ParseUint", s0, .ErrRange⟩)
        else parseUintLoop s0 cs n1

/-- `strconv.ParseUint(s, 10, 64)`: the value and the error, if any. -/
def ParseUint (s : List Char) : Nat × Option NumError :=
  if s = [] then (0, some ⟨"ParseUint", s, .ErrSyntax⟩)
  else parseUintLoop s s 0

/-- The conversion `int64(x)` of an integer, wrapping around. -/
def toInt64 (x : Int) : Int := (x + 2 ^ 63) % 2 ^ 64 - 2 ^ 63

/-- `strconv.ParseInt(s, 10, 64)`: the value and the error, if any. -/
def ParseInt (s0 : List Char) : Int × Option NumError :=
  match s0 with
  | [] => (0, some ⟨"ParseInt", s0, .ErrSyntax⟩)
  | c :: cs =>
    let neg := c == '-'
    let s := if c == '+' then cs else if c == '-' then cs else c :: cs
    let (un, err) := ParseUint s
    match err with
    | some ⟨_, _, .ErrSyntax⟩ => (0, some ⟨"ParseInt", s0, .ErrSyntax⟩)
    | _ =>
      let cutoff : Nat := 2 ^ 63
      if !neg && un ≥ cutoff then (toInt64 (cutoff - 1 : Nat), some ⟨"ParseInt", s0, .ErrRange⟩)
      else if neg && un > cutoff then
        (toInt64 (-toInt64 cutoff), some ⟨"ParseInt", s0, .ErrRange⟩)
      else
        let n := toInt64 un
        (if neg then toInt64 (-n) else n, none)

/-- The canonical base-10 text of a natural number (`strconv.FormatUint(u, 10)`). -/
def FormatUint (u : Nat) : List Char :=
  if u = 0 then ['0'] else (Nat.digits 10 u).reverse.map (fun d => Char.ofNat ('0'.toNat + d))

end Strconv

/-- `parseUint64` of `ddtrace/tracer/util.go`: the value and the error, if any. -/
def parseUint64 (str : List Char) : Nat × Option Strconv.NumError :=
  if str.head? = some '-' then
    match Strconv.ParseInt str with
    | (_, some err) => (0, some err)
    | (id, none) => ((id % 2 ^ 64).toNat, none)
  else Strconv.ParseUint str

/-- The value of a text of decimal digits, read in base 10. -/
def decimalValue (cs : List Char) : Nat :=
  cs.foldl (fun a c => a * 10 + (c.toNat - '0'.toNat)) 0

/-- A non-empty text of ASCII decimal digits. -/
def isDigits (cs : List Char) : Bool := cs != [] && cs.all isDigit

/-- The canonical base-10 text of a signed integer (`strconv.FormatInt(i, 10)`): a
minus sign followed by the digits of the magnitude when negative. -/
def Strconv.FormatInt (i : Int) : List Char :=
  if i < 0 then '-' :: Strconv.FormatUint i.natAbs else Strconv.FormatUint i.natAbs

/-- The line is a cgroup entry with remainder `R`: one or more ASCII decimal digits, a
colon, a colon-free field, a colon, and the non-empty text `R`. -/
def IsEntry (line R : List Char) : Prop :=
  ∃ D C : List Char, line = D ++ ':' :: (C ++ ':' :: R) ∧ D ≠ [] ∧
    (∀ c ∈ D, isDigit c = true) ∧ ':' ∉ C ∧ R ≠ []

/-! ## Lemmas on the matcher -/

namespace Regexp

@[simp] theorem first_some {β : Type} (v : β) (y : Option β) : first (some v) y = some v := rfl

@[simp] theorem first_none {β : Type} (y : Option β) : first none y = y := rfl

@[simp] theorem first_none_right {β : Type} (x : Option β) : first x none = x := by
  cases x <;> rfl

theorem run_cat_cls {β : Type} (k : K β) :
    ∀ (shape : List (Char → Bool)) (m : Nat) (s : List Char) (caps : Caps),
      (Re.cat (shape.map Re.cls)).run k ⟨m, s⟩ caps =
        if prefixShape shape s then k ⟨m + shape.length, s.drop shape.length⟩ caps else none
  | [], m, s, caps => by simp [Re.cat, Re.run, prefixShape]
  | p :: ps, m, [], caps => by simp [Re.cat, Re.run, prefixShape]
  | p :: ps, m, c :: cs, caps => by
    have ih := run_cat_cls k ps (m + 1) cs caps
    simp only [List.map_cons, Re.cat, Re.run, prefixShape, List.length_cons, List.drop_succ_cons]
    by_cases hp : p c = true
    · simp only [hp, if_true, Bool.true_and]
      rw [ih]
      have : m + 1 + ps.length = m + (ps.length + 1) := by omega
      rw [this]
    · simp [hp]

/-- A greedy repetition whose continuation cannot start with a code point of the
class stops exactly where the class stops. -/
theorem greedyStar_det {β : Type} (p : Char → Bool) (k : K β)
    (hk : ∀ m c cs caps, p c = true → k ⟨m, c :: cs⟩ caps = none) :
    ∀ (s : List Char) (n : Nat) (caps : Caps),
      greedyStar p k n s caps = k ⟨n + (s.takeWhile p).length, s.dropWhile p⟩ caps
  | [], n, caps => by simp [greedyStar]
  | c :: cs, n, caps => by
    by_cases hp : p c = true
    · have ih := greedyStar_det p k hk cs (n + 1) caps
      simp only [greedyStar, hp, if_true, ih, hk n c cs caps hp, first_none_right,
        List.takeWhile_cons, List.dropWhile_cons, List.length_cons]
      have : n + 1 + (List.takeWhile p cs).length = n + ((List.takeWhile p cs).length + 1) := by
        omega
      rw [this]
    · simp [greedyStar, hp, List.takeWhile_cons, List.dropWhile_cons]

end Regexp

/-! ## The container-ID expression -/

theorem prefixShape_length : ∀ (sh : List (Char → Bool)) (s : List Char),
    prefixShape sh s = true → sh.length ≤ s.length
  | [], _, _ => by simp
  | _ :: _, [], h => by simp [prefixShape] at h
  | p :: ps, c :: cs, h => by
    simp only [prefixShape, Bool.and_eq_true] at h
    have := prefixShape_length ps cs h.2
    simp only [List.length_cons]
    omega

theorem matchesShape_eq : ∀ (sh : List (Char → Bool)) (s : List Char),
    matchesShape sh s = (prefixShape sh s && s.length == sh.length)
  | [], [] => by simp [matchesShape, prefixShape]
  | [], c :: cs => by simp [matchesShape, prefixShape]
  | p :: ps, [] => by simp [matchesShape, prefixShape]
  | p :: ps, c :: cs => by
    simp only [matchesShape, prefixShape, matchesShape_eq ps cs, List.length_cons]
    cases p c <;> cases prefixShape ps cs <;> simp

theorem prefixShape_append : ∀ (sh : List (Char → Bool)) (t r : List Char),
    matchesShape sh t = true → prefixShape sh (t ++ r) = true
  | [], [], _, _ => by simp [prefixShape]
  | [], _ :: _, _, h => by simp [matchesShape] at h
  | _ :: _, [], _, h => by simp [matchesShape] at h
  | p :: ps, c :: cs, r, h => by
    simp only [matchesShape, Bool.and_eq_true] at h
    simp [prefixShape, h.1, prefixShape_append ps cs r h.2]

namespace Regexp

theorem run_uuid {β : Type} (k : K β) (m : Nat) (s : List Char) (caps : Caps) :
    (Re.cat [Re.rep 8 (.cls isHex), .cls isDelim, Re.rep 4 (.cls isHex), .cls isDelim,
        Re.rep 4 (.cls isHex), .cls isDelim, Re.rep 4 (.cls isHex), .cls isDelim,
        Re.rep 12 (.cls isHex)]).run k ⟨m, s⟩ caps =
      if prefixShape uuidShape s then k ⟨m + 36, s.drop 36⟩ caps else none :=
  run_cat_cls k uuidShape m s caps

theorem run_hex64 {β : Type} (k : K β) (m : Nat) (s : List Char) (caps : Caps) :
    (Re.rep 64 (.cls isHex)).run k ⟨m, s⟩ caps =
      if prefixShape hex64Shape s then k ⟨m + 64, s.drop 64⟩ caps else none :=
  run_cat_cls k hex64Shape m s caps

theorem run_scope {β : Type} (k : K β) (m : Nat) (s : List Char) (caps : Caps) :
    (Re.cat [.cls anyChar, Re.chr 's', Re.chr 'c', Re.chr 'o', Re.chr 'p', Re.chr 'e']).run
        k ⟨m, s⟩ caps =
      if prefixShape scopeShape s then k ⟨m + 6, s.drop 6⟩ caps else none :=
  run_cat_cls k scopeShape m s caps

end Regexp

namespace Regexp

theorem run_idform {β : Type} (U H S : Re) (k : K β) (s : Pos) (caps : Caps) :
    (Re.cat [.cap 1 (.alt U H), Re.opt S, .eot]).run k s caps =
      first
        (U.run (fun s1 caps1 =>
          first
            (S.run (fun s2 caps2 => if s2.rest = [] then k s2 caps2 else none) s1
              (caps1 ++ [(1, s.rest.take (s1.before - s.before))]))
            (if s1.rest = [] then k s1 (caps1 ++ [(1, s.rest.take (s1.before - s.before))])
              else none)) s caps)
        (H.run (fun s1 caps1 =>
          first
            (S.run (fun s2 caps2 => if s2.rest = [] then k s2 caps2 else none) s1
              (caps1 ++ [(1, s.rest.take (s1.before - s.before))]))
            (if s1.rest = [] then k s1 (caps1 ++ [(1, s.rest.take (s1.before - s.before))])
              else none)) s caps) := rfl

end Regexp

namespace Internal

theorem matchAt_expContainerID_raw (n : Nat) (s : List Char) :
    matchAt expContainerID n s =
      first
        (if prefixShape uuidShape s then
          first
            (if prefixShape scopeShape (s.drop 36) then
              (if s.drop 42 = [] then some ⟨s.take 42, [(1, s.take 36)]⟩ else none) else none)
            (if s.drop 36 = [] then some ⟨s.take 36, [(1, s.take 36)]⟩ else none)
         else none)
        (if prefixShape hex64Shape s then
          first
            (if prefixShape scopeShape (s.drop 64) then
              (if s.drop 70 = [] then some ⟨s.take 70, [(1, s.take 64)]⟩ else none) else none)
            (if s.drop 64 = [] then some ⟨s.take 64, [(1, s.take 64)]⟩ else none)
         else none) := by
  unfold matchAt expContainerID
  rw [run_idform, run_uuid, run_hex64]
  simp only [run_scope]
  have h36 : n + 36 + 6 - n = 42 := by omega
  have h64 : n + 64 + 6 - n = 70 := by omega
  simp [h36, h64]

theorem matchAt_expContainerID (n : Nat) (s : List Char) :
    (matchAt expContainerID n s).map Match.text = if endsID s then some s else none := by
  rw [matchAt_expContainerID_raw]
  have lU : uuidShape.length = 36 := rfl
  have lH : hex64Shape.length = 64 := rfl
  have lS : scopeShape.length = 6 := rfl
  have hU := prefixShape_length uuidShape s
  have hH := prefixShape_length hex64Shape s
  have hS36 := prefixShape_length scopeShape (s.drop 36)
  have hS64 := prefixShape_length scopeShape (s.drop 64)
  rw [lU] at hU
  rw [lH] at hH
  rw [lS, List.length_drop] at hS36 hS64
  unfold endsID
  cases hu : prefixShape uuidShape s <;> cases hh : prefixShape hex64Shape s <;>
    cases h1 : prefixShape scopeShape (s.drop 36) <;>
    cases h2 : prefixShape scopeShape (s.drop 64) <;>
    simp only [hu, hh, h1, h2, true_implies] at hU hH hS36 hS64 <;>
    simp only [List.drop_eq_nil_iff, if_true, Bool.false_eq_true, if_false, first_none,
      first_none_right, Option.map_none', Bool.false_and, Bool.and_false, Bool.or_false,
      Bool.false_or, Bool.true_and, Bool.and_true] <;>
    split_ifs <;>
    simp_all [List.take_of_length_le] <;>
    omega

end Internal

namespace Regexp

theorem run_star_det {β : Type} (p : Char → Bool) (k : K β)
    (hk : ∀ m c cs caps, p c = true → k ⟨m, c :: cs⟩ caps = none)
    (m : Nat) (s : List Char) (caps : Caps) :
    (Re.star p).run k ⟨m, s⟩ caps = k ⟨m + (s.takeWhile p).length, s.dropWhile p⟩ caps :=
  greedyStar_det p k hk s m caps

theorem run_plus_det {β : Type} (p : Char → Bool) (k : K β)
    (hk : ∀ m c cs caps, p c = true → k ⟨m, c :: cs⟩ caps = none)
    (m : Nat) (s : List Char) (caps : Caps) :
    (Re.plus p).run k ⟨m, s⟩ caps =
      if s.takeWhile p = [] then none
      else k ⟨m + (s.takeWhile p).length, s.dropWhile p⟩ caps := by
  cases s with
  | nil => simp [Re.plus, Re.run]
  | cons c cs =>
    by_cases hp : p c = true
    · simp only [Re.plus, Re.run, hp, if_true, List.takeWhile_cons, List.dropWhile_cons,
        List.length_cons]
      rw [greedyStar_det p k hk]
      have : m + 1 + (List.takeWhile p cs).length = m + ((List.takeWhile p cs).length + 1) := by
        omega
      simp [this]
    · simp [Re.plus, Re.run, hp, List.takeWhile_cons]

theorem run_chr {β : Type} (c : Char) (k : K β) (m : Nat) (s : List Char) (caps : Caps) :
    (Re.chr c).run k ⟨m, s⟩ caps =
      match s with
      | [] => none
      | x :: xs => if (x == c) = true then k ⟨m + 1, xs⟩ caps else none := rfl

theorem run_lineform {β : Type} (k : K β) (s : Pos) (caps : Caps) :
    (Re.cat [.bot, Re.plus isDigit, Re.chr ':', .star notColon, Re.chr ':',
      .cap 1 (Re.plus anyChar), .eot]).run k s caps =
    if s.before = 0 then
      (Re.plus isDigit).run ((Re.chr ':').run ((Re.star notColon).run ((Re.chr ':').run
        (fun s0 caps0 => (Re.plus anyChar).run
          (fun s1 caps1 =>
            if s1.rest = [] then k s1 (caps1 ++ [(1, s0.rest.take (s1.before - s0.before))])
            else none) s0 caps0)))) s caps
    else none := rfl

end Regexp

theorem isDigit_ne_colon (c : Char) (h : isDigit c = true) : (c == ':') = false := by
  cases hc : c == ':'
  · rfl
  · have : c = ':' := by simpa using hc
    subst this
    revert h
    decide

theorem notColon_ne_colon (c : Char) (h : notColon c = true) : (c == ':') = false := by
  simpa [notColon] using h

theorem length_takeWhile_add_dropWhile (p : Char → Bool) (l : List Char) :
    (l.takeWhile p).length + (l.dropWhile p).length = l.length := by
  rw [← List.length_append, List.takeWhile_append_dropWhile]

namespace Internal

theorem matchAt_expLine_succ (n : Nat) (s : List Char) : matchAt expLine (n + 1) s = none := by
  unfold matchAt expLine
  rw [run_lineform]
  simp

theorem matchAt_expLine_zero (s : List Char) :
    matchAt expLine 0 s = (linePath s).map (fun p => ⟨s, [(1, p)]⟩) := by
  unfold matchAt expLine
  rw [run_lineform]
  rw [if_pos rfl, run_plus_det isDigit _ (fun m c cs caps hp => by
    rw [run_chr]; simp [isDigit_ne_colon c hp])]
  by_cases hd : s.takeWhile isDigit = []
  · simp [hd, linePath]
  rw [if_neg hd, run_chr]
  have e1 := length_takeWhile_add_dropWhile isDigit s
  cases h1 : s.dropWhile isDigit with
  | nil => simp [linePath, h1]
  | cons x r1 =>
    by_cases hx : x = ':'
    swap
    · simp [linePath, h1, hx]
    subst hx
    simp only [beq_self_eq_true, if_true]
    rw [run_star_det notColon _ (fun m c cs caps hp => by
      rw [run_chr]; simp [notColon_ne_colon c hp]), run_chr]
    have e2 := length_takeWhile_add_dropWhile notColon r1
    cases h2 : r1.dropWhile notColon with
    | nil => simp [linePath, h1, h2]
    | cons y r2 =>
      by_cases hy : y = ':'
      swap
      · simp [linePath, h1, h2, hy]
      subst hy
      simp only [beq_self_eq_true, if_true]
      rw [run_plus_det anyChar _ (fun m c cs caps hp => by simp)]
      have e3 := length_takeWhile_add_dropWhile anyChar r2
      have l1 := congrArg List.length h1
      have l2 := congrArg List.length h2
      simp only [List.length_cons] at l1 l2
      have hlp : linePath s = if (r2 != []) && r2.all anyChar then some r2 else none := by
        simp [linePath, h1, h2, hd]
      rw [hlp]
      by_cases h3 : r2.dropWhile anyChar = []
      · have hall : r2.all anyChar = true := by
          rw [List.all_eq_true]
          exact List.dropWhile_eq_nil_iff.mp h3
        have htw : r2.takeWhile anyChar = r2 := by
          have := List.takeWhile_append_dropWhile anyChar r2
          rw [h3, List.append_nil] at this
          exact this
        rw [htw] at e3 ⊢
        cases r2 with
        | nil => simp
        | cons z r3 =>
          have t1 : 0 + (List.takeWhile isDigit s).length + 1 + (List.takeWhile notColon r1).length
              + 1 + (z :: r3).length - 0 = s.length := by
            omega
          have t2 : 0 + (List.takeWhile isDigit s).length + 1 + (List.takeWhile notColon r1).length
              + 1 + (z :: r3).length - (0 + (List.takeWhile isDigit s).length + 1 +
                (List.takeWhile notColon r1).length + 1) = (z :: r3).length := by
            omega
          simp only [h3, hall, t1, t2, List.take_length]
          simp
      · have hall : r2.all anyChar = false := by
          cases h : r2.all anyChar
          · rfl
          · exact absurd (List.dropWhile_eq_nil_iff.mpr (List.all_eq_true.mp h)) h3
        simp [h3, hall]

theorem findFrom_expLine_succ : ∀ (s : List Char) (n : Nat), findFrom expLine (n + 1) s = none
  | [], n => by simp [findFrom, matchAt_expLine_succ]
  | c :: cs, n => by
    simp [findFrom, matchAt_expLine_succ, findFrom_expLine_succ cs (n + 1)]

theorem findFrom_expLine (s : List Char) : findFrom expLine 0 s = matchAt expLine 0 s := by
  cases s with
  | nil => rfl
  | cons c cs =>
    rw [findFrom, findFrom_expLine_succ]
    cases matchAt expLine 0 (c :: cs) <;> rfl

/-- The submatch slice of `expLine` is the line and its path, or empty. -/
theorem FindStringSubmatch_expLine (s : List Char) :
    FindStringSubmatch expLine s =
      match linePath s with
      | some p => [s, p]
      | none => [] := by
  unfold FindStringSubmatch
  rw [findFrom_expLine, matchAt_expLine_zero]
  cases linePath s <;> rfl

theorem findFrom_expContainerID : ∀ (s : List Char) (n : Nat),
    (match findFrom expContainerID n s with
      | some m => m.text
      | none => []) = firstSuffix endsID s
  | [], n => by
    have h := matchAt_expContainerID n []
    rw [findFrom]
    cases hm : matchAt expContainerID n [] with
    | none => rfl
    | some m =>
      rw [hm] at h
      have : endsID [] = false := by decide
      simp [this] at h
  | c :: cs, n => by
    have h := matchAt_expContainerID n (c :: cs)
    have ih := findFrom_expContainerID cs (n + 1)
    rw [findFrom, firstSuffix]
    cases hm : matchAt expContainerID n (c :: cs) with
    | none =>
      rw [hm] at h
      by_cases he : endsID (c :: cs) = true
      · simp [he] at h
      · simp only [he]
        exact ih
    | some m =>
      rw [hm] at h
      by_cases he : endsID (c :: cs) = true
      · simp only [he, if_true, Option.map_some', Option.some.injEq] at h
        simp [he, h]
      · simp [he] at h

/-- The leftmost match of `expContainerID` is the longest suffix that a match covers. -/
theorem FindString_expContainerID (s : List Char) :
    FindString expContainerID s = firstSuffix endsID s :=
  findFrom_expContainerID s 0

end Internal

/-! ## The loop -/

namespace Internal

theorem scanLoop_cons (line : List Char) (rest : List (List Char)) :
    scanLoop (line :: rest) =
      match linePath line with
      | some p => if firstSuffix endsID p != [] then firstSuffix endsID p else scanLoop rest
      | none => scanLoop rest := by
  rw [scanLoop]
  simp only [FindStringSubmatch_expLine, FindString_expContainerID]
  cases linePath line <;> simp

end Internal

theorem linePath_of_parts (D C R : List Char) (hD : D ≠ []) (hDd : ∀ c ∈ D, isDigit c = true)
    (hC : ':' ∉ C) (hR : R ≠ []) (hRn : '\n' ∉ R) :
    linePath (D ++ ':' :: (C ++ ':' :: R)) = some R := by
  have hCc : ∀ c ∈ C, notColon c = true := by
    intro c hc
    simp only [notColon, bne_iff_ne, ne_eq]
    rintro rfl
    exact hC hc
  have hRa : R.all anyChar = true := by
    rw [List.all_eq_true]
    intro c hc
    simp only [anyChar, bne_iff_ne, ne_eq]
    rintro rfl
    exact hRn hc
  have hd0 : isDigit ':' = false := by decide
  have hn0 : notColon ':' = false := by decide
  have t1 : (D ++ ':' :: (C ++ ':' :: R)).takeWhile isDigit = D := by
    rw [List.takeWhile_append_of_pos hDd, List.takeWhile_cons, hd0]
    simp
  have d1 : (D ++ ':' :: (C ++ ':' :: R)).dropWhile isDigit = ':' :: (C ++ ':' :: R) := by
    rw [List.dropWhile_append_of_pos hDd, List.dropWhile_cons, hd0]
    simp
  have d2 : (C ++ ':' :: R).dropWhile notColon = ':' :: R := by
    rw [List.dropWhile_append_of_pos hCc, List.dropWhile_cons, hn0]
    simp
  simp [linePath, t1, d1, d2, hD, hR, hRa]

theorem prefixShape_mid : ∀ (sh : List (Char → Bool)) (Q : List Char) (c : Char) (r : List Char),
    prefixShape sh (Q ++ c :: r) = true → Q.length < sh.length → ∃ p ∈ sh, p c = true
  | [], _, _, _, _, h => by simp at h
  | p :: ps, [], c, r, hp, _ => by
    simp only [List.nil_append, prefixShape, Bool.and_eq_true] at hp
    exact ⟨p, List.mem_cons_self _ _, hp.1⟩
  | p :: ps, q :: Q, c, r, hp, h => by
    simp only [List.cons_append, prefixShape, Bool.and_eq_true] at hp
    simp only [List.length_cons] at h
    obtain ⟨p1, hm, hc⟩ := prefixShape_mid ps Q c r hp.2 (by omega)
    exact ⟨p1, List.mem_cons_of_mem _ hm, hc⟩

theorem uuidShape_classes (p : Char → Bool) (h : p ∈ uuidShape) : p = isHex ∨ p = isDelim := by
  simp only [uuidShape, List.mem_append, List.mem_replicate, List.mem_singleton] at h
  tauto

theorem hex64Shape_classes (p : Char → Bool) (h : p ∈ hex64Shape) : p = isHex := by
  simp only [hex64Shape, List.mem_replicate] at h
  exact h.2

theorem matchesShape_length (sh : List (Char → Bool)) (s : List Char)
    (h : matchesShape sh s = true) : s.length = sh.length := by
  rw [matchesShape_eq, Bool.and_eq_true] at h
  simpa using h.2

theorem matchesShape_prefix (sh : List (Char → Bool)) (s : List Char)
    (h : matchesShape sh s = true) : prefixShape sh s = true := by
  rw [matchesShape_eq, Bool.and_eq_true] at h
  exact h.1

theorem isContainerID_length (t : List Char) (h : isContainerID t = true) :
    t.length = 36 ∨ t.length = 64 := by
  simp only [isContainerID, Bool.or_eq_true] at h
  rcases h with h | h
  · exact Or.inl (matchesShape_length _ _ h)
  · exact Or.inr (matchesShape_length _ _ h)

theorem endsID_of_isContainerID (t : List Char) (h : isContainerID t = true) :
    endsID t = true := by
  simp only [isContainerID, Bool.or_eq_true] at h
  rcases h with h | h
  · have hl : t.length = 36 := matchesShape_length _ _ h
    simp [endsID, matchesShape_prefix _ _ h, hl]
  · have hl : t.length = 64 := matchesShape_length _ _ h
    simp [endsID, matchesShape_prefix _ _ h, hl]

/-- No match attempt succeeds on a text in which a slash precedes a final token. -/
theorem endsID_sep (Q t : List Char) (h : isContainerID t = true) :
    endsID (Q ++ '/' :: t) = false := by
  have hx : isHex '/' = false := by decide
  have hd : isDelim '/' = false := by decide
  have hl := isContainerID_length t h
  cases he : endsID (Q ++ '/' :: t)
  · rfl
  exfalso
  simp only [endsID, Bool.or_eq_true, Bool.and_eq_true, beq_iff_eq, List.length_append,
    List.length_cons] at he
  rcases he with ⟨hp, hlen⟩ | ⟨hp, hlen⟩
  · obtain ⟨p, hm, hc⟩ := prefixShape_mid uuidShape Q '/' t hp (by
      have : uuidShape.length = 36 := rfl
      omega)
    rcases uuidShape_classes p hm with rfl | rfl
    · rw [hx] at hc; cases hc
    · rw [hd] at hc; cases hc
  · obtain ⟨p, hm, hc⟩ := prefixShape_mid hex64Shape Q '/' t hp (by
      have : hex64Shape.length = 64 := rfl
      omega)
    rw [hex64Shape_classes p hm, hx] at hc
    cases hc

theorem firstSuffix_self (f : List Char → Bool) (s : List Char) (h : f s = true) :
    firstSuffix f s = s := by
  cases s with
  | nil => rfl
  | cons c cs => simp [firstSuffix, h]

theorem firstSuffix_sep (t : List Char) (h : isContainerID t = true) :
    ∀ P : List Char, firstSuffix endsID (P ++ '/' :: t) = t
  | [] => by
    have := endsID_sep [] t h
    simp only [List.nil_append] at this
    simp [firstSuffix, this, firstSuffix_self endsID t (endsID_of_isContainerID t h)]
  | p :: P => by
    have := endsID_sep (p :: P) t h
    simp only [List.cons_append] at this
    simp [firstSuffix, this, firstSuffix_sep t h P]

theorem matchesShape_mem : ∀ (sh : List (Char → Bool)) (s : List Char),
    matchesShape sh s = true → ∀ c ∈ s, ∃ p ∈ sh, p c = true
  | [], [], _, c, hc => by simp at hc
  | [], _ :: _, h, _, _ => by simp [matchesShape] at h
  | _ :: _, [], _, c, hc => by simp at hc
  | p :: ps, x :: xs, h, c, hc => by
    simp only [matchesShape, Bool.and_eq_true] at h
    rcases List.mem_cons.mp hc with rfl | hc
    · exact ⟨p, List.mem_cons_self _ _, h.1⟩
    · obtain ⟨q, hq, hqc⟩ := matchesShape_mem ps xs h.2 c hc
      exact ⟨q, List.mem_cons_of_mem _ hq, hqc⟩

/-- Every character of a container-ID token is a lowercase hexadecimal digit or a delimiter. -/
theorem isContainerID_chars (t : List Char) (h : isContainerID t = true) :
    ∀ c ∈ t, isHex c = true ∨ isDelim c = true := by
  intro c hc
  simp only [isContainerID, Bool.or_eq_true] at h
  rcases h with h | h
  · obtain ⟨p, hp, hpc⟩ := matchesShape_mem _ _ h c hc
    rcases uuidShape_classes p hp with rfl | rfl
    · exact Or.inl hpc
    · exact Or.inr hpc
  · obtain ⟨p, hp, hpc⟩ := matchesShape_mem _ _ h c hc
    rw [hex64Shape_classes p hp] at hpc
    exact Or.inl hpc

theorem isContainerID_no_newline (t : List Char) (h : isContainerID t = true) : '\n' ∉ t := by
  intro hc
  have hx : isHex '\n' = false := by decide
  have hd : isDelim '\n' = false := by decide
  rcases isContainerID_chars t h _ hc with h1 | h1
  · rw [hx] at h1; cases h1
  · rw [hd] at h1; cases h1

namespace Tracer

theorem scanLoop_eq : ∀ lines : List (List Char), scanLoop lines = Internal.scanLoop lines
  | [] => rfl
  | l :: ls => by
    rw [scanLoop, Internal.scanLoop, scanLoop_eq ls]
    rfl

end Tracer

theorem prefixShape_take : ∀ (sh : List (Char → Bool)) (s : List Char),
    prefixShape sh s = true → matchesShape sh (s.take sh.length) = true
  | [], s, _ => by simp [matchesShape]
  | _ :: _, [], h => by simp [prefixShape] at h
  | p :: ps, c :: cs, h => by
    simp only [prefixShape, Bool.and_eq_true] at h
    simp [matchesShape, h.1, prefixShape_take ps cs h.2]

theorem scope_tail (r : List Char) (hl : r.length = 6) (hp : prefixShape scopeShape r = true) :
    r.drop 1 = "scope".toList := by
  match r, hl with
  | [a, b, c, d, e, f], _ =>
    simp only [prefixShape, scopeShape, Bool.and_eq_true, beq_iff_eq] at hp
    obtain ⟨-, rfl, rfl, rfl, rfl, rfl, -⟩ := hp
    rfl

/-- A successful match attempt covers a token, or a token followed by one character
and `scope`. -/
theorem endsID_cases (s : List Char) (h : endsID s = true) :
    isContainerID s = true ∨ isScopedToken s = true := by
  have lU : uuidShape.length = 36 := rfl
  have lH : hex64Shape.length = 64 := rfl
  unfold endsID at h
  simp only [Bool.or_eq_true, Bool.and_eq_true, beq_iff_eq] at h
  rcases h with ⟨hp, hl | ⟨hl, hs⟩⟩ | ⟨hp, hl | ⟨hl, hs⟩⟩
  · left
    simp [isContainerID, matchesShape_eq, hp, hl, lU]
  · right
    have h1 := prefixShape_take uuidShape s hp
    rw [lU] at h1
    have h2 := scope_tail (s.drop 36) (by simp [hl]) hs
    rw [List.drop_drop] at h2
    simp [isScopedToken, hl, isContainerID, h1, h2]
  · left
    simp [isContainerID, matchesShape_eq, hp, hl, lH]
  · right
    have h1 := prefixShape_take hex64Shape s hp
    rw [lH] at h1
    have h2 := scope_tail (s.drop 64) (by simp [hl]) hs
    rw [List.drop_drop] at h2
    simp [isScopedToken, hl, isContainerID, h1, h2]

theorem firstSuffix_nil (f : List Char → Bool) :
    ∀ p : List Char, p.tails.any f = false → firstSuffix f p = []
  | [], _ => rfl
  | c :: cs, h => by
    simp only [List.tails, List.any_cons, Bool.or_eq_false_iff] at h
    simp [firstSuffix, h.1, firstSuffix_nil f cs h.2]

theorem firstSuffix_endsID_nil (p : List Char) (h1 : endsInToken p = false)
    (h2 : endsInScopedToken p = false) : firstSuffix endsID p = [] := by
  apply firstSuffix_nil
  rw [List.any_eq_false]
  intro s hs
  have e1 := (List.any_eq_false.mp h1) s hs
  have e2 := (List.any_eq_false.mp h2) s hs
  intro he
  rcases endsID_cases s he with h | h
  · exact e1 h
  · exact e2 h

theorem scanLoop_empty : ∀ lines : List (List Char),
    (∀ l ∈ lines, (FindStringSubmatch Internal.expLine l).length = 2 →
      endsInToken ((FindStringSubmatch Internal.expLine l).getD 1 []) = false ∧
      endsInScopedToken ((FindStringSubmatch Internal.expLine l).getD 1 []) = false) →
    Internal.scanLoop lines = []
  | [], _ => rfl
  | l :: ls, h => by
    have ih := scanLoop_empty ls (fun x hx => h x (List.mem_cons_of_mem _ hx))
    have hl := h l (List.mem_cons_self _ _)
    rw [Internal.scanLoop_cons]
    rw [Internal.FindStringSubmatch_expLine] at hl
    cases hp : linePath l with
    | none => exact ih
    | some p =>
      rw [hp] at hl
      have := hl rfl
      simp only [List.getD_cons_succ, List.getD_cons_zero] at this
      simp [firstSuffix_endsID_nil p this.1 this.2, ih]

/-! ## The scanner -/

theorem scanTokens_cons (l : List Char) (ls : List (List Char)) :
    scanTokens (l :: ls) =
      if utf8Len l < maxScanTokenSize then dropCR l :: scanTokens ls else [] := by
  unfold scanTokens
  by_cases h : utf8Len l < maxScanTokenSize
  · simp [List.takeWhile_cons, h]
  · simp [List.takeWhile_cons, h]

theorem mem_scanTokens (lines : List (List Char)) (x : List Char) (h : x ∈ scanTokens lines) :
    ∃ l ∈ lines, x = dropCR l := by
  unfold scanTokens at h
  obtain ⟨l, hl, rfl⟩ := List.mem_map.mp h
  exact ⟨l, (List.takeWhile_sublist _).subset hl, rfl⟩

/-- Lines that fit in the buffer are handed out, and the scan goes on after them. -/
theorem scanTokens_append : ∀ (pre rest : List (List Char)),
    (∀ l ∈ pre, utf8Len l < maxScanTokenSize) →
    scanTokens (pre ++ rest) = pre.map dropCR ++ scanTokens rest
  | [], _, _ => rfl
  | l :: ls, rest, h => by
    have hl := h l (List.mem_cons_self _ _)
    rw [List.cons_append, scanTokens_cons, if_pos hl,
      scanTokens_append ls rest (fun x hx => h x (List.mem_cons_of_mem _ hx))]
    rfl

theorem length_le_utf8Len : ∀ l : List Char, l.length ≤ utf8Len l
  | [] => Nat.le_refl 0
  | c :: cs => by
    have h1 := length_le_utf8Len cs
    have h2 := c.utf8Size_pos
    simp only [List.length_cons, utf8Len]
    omega

theorem utf8Len_append : ∀ a b : List Char, utf8Len (a ++ b) = utf8Len a + utf8Len b
  | [], b => by simp [utf8Len]
  | c :: cs, b => by
    have ih := utf8Len_append cs b
    show utf8Len (c :: (cs ++ b)) = utf8Len (c :: cs) + utf8Len b
    rw [utf8Len, utf8Len, ih]
    omega

theorem getLast?_append_ne_nil : ∀ (a t : List Char), t ≠ [] →
    (a ++ t).getLast? = t.getLast?
  | [], _, _ => rfl
  | c :: cs, t, h => by
    have hne : cs ++ t ≠ [] := by simp [h]
    obtain ⟨x, xs, hx⟩ := List.exists_cons_of_ne_nil hne
    rw [List.cons_append, hx, List.getLast?_cons_cons, ← hx]
    exact getLast?_append_ne_nil cs t h

theorem mem_of_getLast? : ∀ (t : List Char) (x : Char), t.getLast? = some x → x ∈ t
  | [], _, h => by simp at h
  | [c], x, h => by
    simp only [List.getLast?_singleton, Option.some.injEq] at h
    simp [h]
  | c :: d :: cs, x, h => by
    rw [List.getLast?_cons_cons] at h
    exact List.mem_cons_of_mem _ (mem_of_getLast? (d :: cs) x h)

/-- A text that ends in a container-ID token has no final carriage return. -/
theorem dropCR_token (a t : List Char) (h : isContainerID t = true) :
    dropCR (a ++ t) = a ++ t := by
  have hne : t ≠ [] := by
    intro hc
    rw [hc] at h
    exact absurd h (by decide)
  unfold dropCR
  rw [getLast?_append_ne_nil a t hne]
  split
  · rename_i hl
    exfalso
    have hx : isHex '\r' = false := by decide
    have hd : isDelim '\r' = false := by decide
    rcases isContainerID_chars t h _ (mem_of_getLast? t _ hl) with h1 | h1
    · rw [hx] at h1; cases h1
    · rw [hd] at h1; cases h1
  · rfl

/-! ## Claims on the container-ID detector -/

/-- A first line that does not fit in the buffer of the scanner ends the scan. -/
theorem findContainerID_too_long (fs : FS) (path : String) (line : List Char)
    (rest : List (List Char)) (hfs : fs path = some (line :: rest))
    (h : maxScanTokenSize ≤ utf8Len line) : Internal.FindContainerID fs path = [] := by
  unfold Internal.FindContainerID
  rw [hfs]
  simp only []
  rw [scanTokens_cons, if_neg (by omega)]
  rfl

theorem utf8Len_ge_of_replicate (a b : List Char) (n : Nat) (c : Char) :
    n ≤ utf8Len (a ++ (List.replicate n c ++ b)) := by
  have h := length_le_utf8Len (a ++ (List.replicate n c ++ b))
  rw [List.length_append, List.length_append, List.length_replicate] at h
  omega

/-- C1 (counterexample): a cgroup file whose single line is `D:C:P/t` with `D` the digit
`1`, `C` empty, `P` 65536 letters `a` and `t` a token of 64 hexadecimal characters; the
line does not fit in the buffer of the scanner and `FindContainerID` returns the empty
string, not `t`. -/
theorem findContainerID_over_long_line :
    '\n' ∉ List.replicate 65536 'a' ∧
    isContainerID "0123456789abcdef0123456789abcdef0123456789abcdef0123456789abcdef".toList
      = true ∧
    Internal.FindContainerID
      (fun _ => some ["1::".toList ++ (List.replicate 65536 'a' ++
        '/' :: "0123456789abcdef0123456789abcdef0123456789abcdef0123456789abcdef".toList)])
      Internal.cgroupPath = [] :=
  ⟨fun h => absurd (List.eq_of_mem_replicate h) (by decide), by decide,
    findContainerID_too_long _ _ _ [] rfl (utf8Len_ge_of_replicate _ _ 65536 'a')⟩

section ContainerClaims

set_option maxRecDepth 100000

/-- C1 (amended): for every container-ID token `t` (64 lowercase hexadecimal
characters, or five lowercase hexadecimal groups of lengths 8-4-4-4-12 delimited by
`-` or `_`) and every cgroup file whose single line is `D:C:P/t`, with `D` one or more
decimal digits, `C` free of colons and `P` free of line breaks, the line being shorter
than 65536 bytes, `FindContainerID` returns exactly `t`. -/
theorem findContainerID_single_line (fs : FS) (path : String) (D C P t : List Char)
    (hD : D ≠ []) (hDd : ∀ c ∈ D, isDigit c = true) (hC : ':' ∉ C) (hP : '\n' ∉ P)
    (ht : isContainerID t = true)
    (hlen : utf8Len (D ++ ':' :: (C ++ ':' :: (P ++ '/' :: t))) < maxScanTokenSize)
    (hfs : fs path = some [D ++ ':' :: (C ++ ':' :: (P ++ '/' :: t))]) :
    Internal.FindContainerID fs path = t := by
  have hR : '\n' ∉ P ++ '/' :: t := by
    intro h
    rcases List.mem_append.mp h with h | h
    · exact hP h
    · rcases List.mem_cons.mp h with h | h
      · exact absurd h (by decide)
      · exact isContainerID_no_newline t ht h
  have hne : t ≠ [] := by
    intro h
    rw [h] at ht
    exact absurd ht (by decide)
  have hlp := linePath_of_parts D C (P ++ '/' :: t) hD hDd hC (by simp) hR
  have hcr : dropCR (D ++ ':' :: (C ++ ':' :: (P ++ '/' :: t))) =
      D ++ ':' :: (C ++ ':' :: (P ++ '/' :: t)) := by
    have h := dropCR_token (D ++ ':' :: (C ++ ':' :: (P ++ ['/']))) t ht
    simpa using h
  unfold Internal.FindContainerID
  rw [hfs]
  simp only []
  rw [scanTokens_cons, if_pos hlen, hcr, Internal.scanLoop_cons, hlp]
  simp only [firstSuffix_sep t ht P]
  simp [hne]

/-- Witness of the amended C1 at the line written by the test helper
`TestFakeContainerID`. -/
theorem findContainerID_single_line_witness :
    Internal.FindContainerID
      (fun _ => some ["10:hugetlb:/kubepods/burstable/podfd52ef25-a87d-11e9-9423-0800271a638e/0123456789abcdef0123456789abcdef0123456789abcdef0123456789abcdef".toList])
      Internal.cgroupPath =
      "0123456789abcdef0123456789abcdef0123456789abcdef0123456789abcdef".toList :=
  findContainerID_single_line _ _ "10".toList "hugetlb".toList
    "/kubepods/burstable/podfd52ef25-a87d-11e9-9423-0800271a638e".toList
    "0123456789abcdef0123456789abcdef0123456789abcdef0123456789abcdef".toList
    (by decide) (by decide) (by decide) (by decide) (by decide) (by decide) rfl


/-- C2 (evaluation): on a line whose path ends in a token followed by `.scope`, both
copies of `FindContainerID` return the token together with the `.scope` suffix, not
the token alone. -/
theorem findContainerID_keeps_scope_suffix :
    Internal.FindContainerID
        (fun _ => some ["1:name=systemd:/system.slice/docker-0123456789abcdef0123456789abcdef0123456789abcdef0123456789abcdef.scope".toList])
        Internal.cgroupPath =
      "0123456789abcdef0123456789abcdef0123456789abcdef0123456789abcdef.scope".toList ∧
    Tracer.FindContainerID
        (fun _ => some ["1:name=systemd:/system.slice/docker-0123456789abcdef0123456789abcdef0123456789abcdef0123456789abcdef.scope".toList]) =
      "0123456789abcdef0123456789abcdef0123456789abcdef0123456789abcdef.scope".toList ∧
    isContainerID "0123456789abcdef0123456789abcdef0123456789abcdef0123456789abcdef".toList
      = true := by
  decide

/-- C3 (evaluation): on a line whose path ends in a UUID-like token followed by
`.scope`, the returned string is not empty and does not have the container-ID shape. -/
theorem findContainerID_result_not_id_shape :
    Internal.FindContainerID
        (fun _ => some ["12:pids:/kubepods.slice/crio-fd52ef25_a87d_11e9_9423_0800271a638e.scope".toList])
        Internal.cgroupPath =
      "fd52ef25_a87d_11e9_9423_0800271a638e.scope".toList ∧
    isContainerID "fd52ef25_a87d_11e9_9423_0800271a638e.scope".toList = false := by
  decide

/-- C4 (counterexample): a file whose only line matches the line pattern and whose
path does not end in a container-ID token (it ends in `.scope`), on which
`FindContainerID` returns a non-empty string. -/
theorem findContainerID_nonempty_without_final_token :
    (FindStringSubmatch Internal.expLine
        "1:name=systemd:/system.slice/docker-0123456789abcdef0123456789abcdef0123456789abcdef0123456789abcdef.scope".toList).length = 2 ∧
    endsInToken ((FindStringSubmatch Internal.expLine
        "1:name=systemd:/system.slice/docker-0123456789abcdef0123456789abcdef0123456789abcdef0123456789abcdef.scope".toList).getD 1 []) = false ∧
    Internal.FindContainerID
        (fun _ => some ["1:name=systemd:/system.slice/docker-0123456789abcdef0123456789abcdef0123456789abcdef0123456789abcdef.scope".toList])
        Internal.cgroupPath ≠ [] := by
  decide

/-- C4 (amended): `FindContainerID`, whose only result is a string, returns the empty
string whenever the cgroup file cannot be opened, is empty, contains no line matching
the line pattern, or contains only matching lines whose path ends neither in a
container-ID token nor in such a token followed by one character and `scope`; a line
is taken without its final carriage return, as the scanner hands it out. -/
theorem findContainerID_empty (fs : FS) (path : String)
    (h : fs path = none ∨ fs path = some [] ∨
      (∃ lines, fs path = some lines ∧
        ∀ l ∈ lines, FindStringSubmatch Internal.expLine (dropCR l) = []) ∨
      (∃ lines, fs path = some lines ∧
        ∀ l ∈ lines, (FindStringSubmatch Internal.expLine (dropCR l)).length = 2 ∧
          endsInToken ((FindStringSubmatch Internal.expLine (dropCR l)).getD 1 []) = false ∧
          endsInScopedToken
            ((FindStringSubmatch Internal.expLine (dropCR l)).getD 1 []) = false)) :
    Internal.FindContainerID fs path = [] := by
  unfold Internal.FindContainerID
  rcases h with h | h | ⟨lines, h, hl⟩ | ⟨lines, h, hl⟩
  · rw [h]
  · rw [h]; rfl
  · rw [h]
    exact scanLoop_empty (scanTokens lines) (fun x hm hlen => by
      obtain ⟨l, hl1, rfl⟩ := mem_scanTokens lines x hm
      rw [hl l hl1] at hlen
      cases hlen)
  · rw [h]
    exact scanLoop_empty (scanTokens lines) (fun x hm _ => by
      obtain ⟨l, hl1, rfl⟩ := mem_scanTokens lines x hm
      exact (hl l hl1).2)

/-- Witness of the amended C4: a missing file, and a file with one matching line
whose path has no token at its end. -/
theorem findContainerID_empty_witness :
    Internal.FindContainerID (fun _ => none) Internal.cgroupPath = [] ∧
    Internal.FindContainerID
      (fun _ => some ["10:hugetlb:/kubepods/burstable/podfd52ef25-a87d-11e9-9423-0800271a638e/x".toList])
      Internal.cgroupPath = [] :=
  ⟨findContainerID_empty _ _ (Or.inl rfl),
    findContainerID_empty _ _ (Or.inr (Or.inr (Or.inr ⟨_, rfl, by decide⟩)))⟩

end ContainerClaims

/-! ## Numeric coercion -/

theorem bitLenAux_le : ∀ (fuel n k : Nat), n < 2 ^ k → bitLenAux fuel n ≤ k
  | 0, _, _, _ => Nat.zero_le _
  | fuel + 1, n, k, h => by
    rw [bitLenAux]
    by_cases hn : n = 0
    · simp [hn]
    · rw [if_neg hn]
      cases k with
      | zero => simp at h; exact absurd h hn
      | succ k =>
        have : n / 2 < 2 ^ k := by
          rw [Nat.div_lt_iff_lt_mul (by decide)]
          rw [Nat.pow_succ] at h
          exact h
        have := bitLenAux_le fuel (n / 2) k this
        omega

/-- An integer below `2 ^ 53` is its own rounding to 53 bits. -/
theorem roundNearestEven_small (n : Nat) (h : n < 2 ^ 53) : roundNearestEven 53 n = (n, 0) := by
  have hb : bitLen n - 53 = 0 := by
    have := bitLenAux_le n n 53 h
    unfold bitLen
    omega
  simp only [roundNearestEven, hb, Nat.pow_zero, Nat.mod_one, Nat.div_one, Nat.mul_zero]
  have h0 : ¬ (0 > 1 ∨ (0 = 1 ∧ n % 2 = 1)) := by omega
  rw [if_neg h0, if_neg (by omega)]

theorem float64OfNat_exact (neg : Bool) (n : Nat) (h : n < 2 ^ 53) :
    (float64OfNat neg n).toRat = some ((if neg then -1 else 1) * (n : ℚ)) := by
  simp [float64OfNat, roundNearestEven_small n h, IEEE.toRat]

theorem float64OfInt_exact (i : Int) (hlo : -2 ^ 53 < i) (hhi : i < 2 ^ 53) :
    (float64OfInt i).toRat = some (i : ℚ) := by
  have hn : i.natAbs < 2 ^ 53 := by omega
  rw [float64OfInt, float64OfNat_exact _ _ hn]
  congr 1
  by_cases hneg : i < 0
  · obtain ⟨n, rfl⟩ : ∃ n : Nat, i = -(n : Int) := ⟨i.natAbs, by omega⟩
    simp [hneg]
  · obtain ⟨n, rfl⟩ : ∃ n : Nat, i = (n : Int) := ⟨i.natAbs, by omega⟩
    simp

/-! ## Claims on `toFloat64` -/

/-- C5: for every `int64` value `i`, `toFloat64(i)` returns `(f, true)` with `f`
exactly equal to `i` when `-2^53 < i < 2^53`, and `(0, false)` when `i ≥ 2^53` or
`i ≤ -2^53`. -/
theorem toFloat64_int64 (i : Int) (_hr : (Value.int64 i).InRange) :
    ((-2 ^ 53 < i ∧ i < 2 ^ 53) →
      (toFloat64 (.int64 i)).2 = true ∧ (toFloat64 (.int64 i)).1.toRat = some (i : ℚ)) ∧
    ((i ≥ 2 ^ 53 ∨ i ≤ -2 ^ 53) → toFloat64 (.int64 i) = (IEEE.zero, false)) := by
  have hmax : (((1 <<< 53 : Nat) : Int) - 1) = 2 ^ 53 - 1 := by decide
  constructor
  · rintro ⟨hlo, hhi⟩
    have hc : ¬ (i > 2 ^ 53 - 1 ∨ i < -(2 ^ 53 - 1)) := by omega
    simp only [toFloat64, hmax, Bool.or_eq_true, decide_eq_true_eq, hc, if_false]
    exact ⟨trivial, float64OfInt_exact i hlo hhi⟩
  · intro h
    have hc : i > 2 ^ 53 - 1 ∨ i < -(2 ^ 53 - 1) := by omega
    simp only [toFloat64, hmax, Bool.or_eq_true, decide_eq_true_eq, hc, if_true]

/-- Witness of C5: `2^53 - 1` succeeds with its exact float equivalent and `2^53` fails. -/
theorem toFloat64_int64_witness :
    ((toFloat64 (.int64 (2 ^ 53 - 1))).2 = true ∧
      (toFloat64 (.int64 (2 ^ 53 - 1))).1.toRat = some (((2 ^ 53 - 1 : Int)) : ℚ)) ∧
    toFloat64 (.int64 (2 ^ 53)) = (IEEE.zero, false) :=
  ⟨(toFloat64_int64 (2 ^ 53 - 1) (by norm_num [Value.InRange])).1 (by norm_num),
    (toFloat64_int64 (2 ^ 53) (by norm_num [Value.InRange])).2 (by norm_num)⟩

/-- C6: for every `uint64` value `u`, `toFloat64(u)` returns `(f, true)` with `f`
exactly equal to `u` when `u ≤ 2^53 - 1`, and `(0, false)` when `u ≥ 2^53`. -/
theorem toFloat64_uint64 (u : Nat) (_hr : (Value.uint64 u).InRange) :
    (u ≤ 2 ^ 53 - 1 →
      (toFloat64 (.uint64 u)).2 = true ∧ (toFloat64 (.uint64 u)).1.toRat = some (u : ℚ)) ∧
    (u ≥ 2 ^ 53 → toFloat64 (.uint64 u) = (IEEE.zero, false)) := by
  have hmax : (((1 <<< 53 : Nat) : Int) - 1).toNat % 2 ^ 64 = 2 ^ 53 - 1 := by decide
  constructor
  · intro h
    have hc : ¬ (u > 2 ^ 53 - 1) := by omega
    simp only [toFloat64, hmax, hc, if_false]
    refine ⟨trivial, ?_⟩
    rw [float64OfNat_exact false u (by omega)]
    simp
  · intro h
    have hc : u > 2 ^ 53 - 1 := by omega
    simp only [toFloat64, hmax, hc, if_true]

/-- Witness of C6: `2^53 - 1` succeeds with its exact float equivalent and `2^53` fails. -/
theorem toFloat64_uint64_witness :
    ((toFloat64 (.uint64 (2 ^ 53 - 1))).2 = true ∧
      (toFloat64 (.uint64 (2 ^ 53 - 1))).1.toRat = some (((2 ^ 53 - 1 : Nat)) : ℚ)) ∧
    toFloat64 (.uint64 (2 ^ 53)) = (IEEE.zero, false) :=
  ⟨(toFloat64_uint64 (2 ^ 53 - 1) (by norm_num [Value.InRange])).1 (by norm_num),
    (toFloat64_uint64 (2 ^ 53) (by norm_num [Value.InRange])).2 (by norm_num)⟩

/-- C7 (evaluation): the `int` and `uint` cases of `toFloat64` convert values at and
beyond `2^53` in magnitude and report success, where the `int64` and `uint64` cases
return `(0, false)`. -/
theorem toFloat64_int_uint_unchecked :
    toFloat64 (.int (2 ^ 53)) = (.finite false (2 ^ 52) 1, true) ∧
    toFloat64 (.int (-2 ^ 53)) = (.finite true (2 ^ 52) 1, true) ∧
    toFloat64 (.uint (2 ^ 53)) = (.finite false (2 ^ 52) 1, true) ∧
    toFloat64 (.int64 (2 ^ 53)) = (IEEE.zero, false) ∧
    toFloat64 (.uint64 (2 ^ 53)) = (IEEE.zero, false) := by
  decide

/-- C8 (evaluation): on the `int` value `2^53 + 1`, `toFloat64` reports success with a
float equal to `2^53`, the same float as for the `int` value `2^53`. -/
theorem toFloat64_int_loses_precision :
    toFloat64 (.int (2 ^ 53 + 1)) = (.finite false (2 ^ 52) 1, true) ∧
    (toFloat64 (.int (2 ^ 53 + 1))).1.toRat = some (2 ^ 53) ∧
    (toFloat64 (.int (2 ^ 53 + 1))).1.toRat ≠ some (((2 ^ 53 + 1 : Int)) : ℚ) ∧
    toFloat64 (.int (2 ^ 53 + 1)) = toFloat64 (.int (2 ^ 53)) := by
  have h1 : toFloat64 (.int (2 ^ 53 + 1)) = (.finite false (2 ^ 52) 1, true) := by decide
  have h2 : toFloat64 (.int (2 ^ 53)) = (.finite false (2 ^ 52) 1, true) := by decide
  refine ⟨h1, ?_, ?_, h1.trans h2.symm⟩
  · rw [h1]
    norm_num [IEEE.toRat]
  · rw [h1]
    norm_num [IEEE.toRat]

/-- C9: for every input whose dynamic type is not one of `byte`, `int`, `int16`,
`int32`, `int64`, `uint`, `uint16`, `uint32`, `uint64`, `float32`, `float64`,
`toFloat64` returns `(0, false)`. -/
theorem toFloat64_unsupported (v : Value) (h : v.supported = false) :
    toFloat64 v = (IEEE.zero, false) := by
  cases v <;> first | rfl | (simp [Value.supported] at h)

/-- Witness of C9: a string, a bool, an `int8` and nil. -/
theorem toFloat64_unsupported_witness :
    toFloat64 (.string "abc") = (IEEE.zero, false) ∧
    toFloat64 (.bool true) = (IEEE.zero, false) ∧
    toFloat64 (.int8 1) = (IEEE.zero, false) ∧
    toFloat64 .nil = (IEEE.zero, false) :=
  ⟨toFloat64_unsupported _ rfl, toFloat64_unsupported _ rfl, toFloat64_unsupported _ rfl,
    toFloat64_unsupported _ rfl⟩

/-! ## Unsigned parsing -/

namespace Strconv

theorem digitOf_digit (d : Nat) (h : d < 10) : digitOf (Char.ofNat ('0'.toNat + d)) = some d := by
  interval_cases d <;> decide

theorem le_foldl_digits : ∀ (ds : List Nat) (n : Nat),
    n ≤ ds.foldl (fun a d => a * 10 + d) n
  | [], n => Nat.le_refl n
  | d :: ds, n => by
    have := le_foldl_digits ds (n * 10 + d)
    simp only [List.foldl_cons]
    omega

/-- The digit loop on the characters of decimal digits accumulates their value, as
long as the final value fits in 64 bits. -/
theorem parseUintLoop_digits (s0 : List Char) : ∀ (ds : List Nat) (n : Nat),
    (∀ d ∈ ds, d < 10) → ds.foldl (fun a d => a * 10 + d) n < 2 ^ 64 →
    parseUintLoop s0 (ds.map (fun d => Char.ofNat ('0'.toNat + d))) n =
      (ds.foldl (fun a d => a * 10 + d) n, none)
  | [], n, _, _ => rfl
  | d :: ds, n, hd, hv => by
    have hd10 : d < 10 := hd d (List.mem_cons_self _ _)
    have hle := le_foldl_digits ds (n * 10 + d)
    simp only [List.foldl_cons] at hv
    have hn1 : n * 10 + d < 2 ^ 64 := lt_of_le_of_lt hle hv
    have ih := parseUintLoop_digits s0 ds (n * 10 + d)
      (fun x hx => hd x (List.mem_cons_of_mem _ hx)) hv
    simp only [List.map_cons, parseUintLoop, digitOf_digit d hd10, List.foldl_cons]
    have c1 : ¬ d ≥ 10 := by omega
    have c2 : ¬ n ≥ maxUint64 / 10 + 1 := by
      simp only [maxUint64]
      omega
    have e1 : n * 10 % 2 ^ 64 = n * 10 := Nat.mod_eq_of_lt (by omega)
    have e2 : (n * 10 + d) % 2 ^ 64 = n * 10 + d := Nat.mod_eq_of_lt hn1
    have c3 : ¬ (n * 10 + d < n * 10 ∨ n * 10 + d > maxUint64) := by
      simp only [maxUint64]
      omega
    rw [if_neg c1, if_neg c2]
    simp only [e1, e2, if_neg c3]
    exact ih

theorem foldl_digits_reverse (u : Nat) :
    (Nat.digits 10 u).reverse.foldl (fun a d => a * 10 + d) 0 = u := by
  rw [List.foldl_reverse]
  have h : ∀ L : List Nat, L.foldr (fun d a => a * 10 + d) 0 = Nat.ofDigits 10 L := by
    intro L
    induction L with
    | nil => rfl
    | cons d L ih =>
      simp only [List.foldr_cons, ih, Nat.ofDigits_cons]
      omega
  rw [h, Nat.ofDigits_digits]

/-- Parsing the canonical decimal text of a 64-bit value gives the value back. -/
theorem ParseUint_FormatUint (u : Nat) (hu : u < 2 ^ 64) :
    ParseUint (FormatUint u) = (u, none) := by
  by_cases h0 : u = 0
  · subst h0
    decide
  · have hne : (Nat.digits 10 u).reverse.map (fun d => Char.ofNat ('0'.toNat + d)) ≠ [] := by
      simp [Nat.digits_ne_nil_iff_ne_zero, h0]
    have hd : ∀ d ∈ (Nat.digits 10 u).reverse, d < 10 := by
      intro d hd
      exact Nat.digits_lt_base (by decide) (List.mem_reverse.mp hd)
    have hv : (Nat.digits 10 u).reverse.foldl (fun a d => a * 10 + d) 0 < 2 ^ 64 := by
      rw [foldl_digits_reverse]
      exact hu
    have := parseUintLoop_digits (FormatUint u) (Nat.digits 10 u).reverse 0 hd hv
    rw [foldl_digits_reverse] at this
    simp only [FormatUint, if_neg h0] at this ⊢
    rw [ParseUint, if_neg hne]
    exact this

theorem ParseUint_minus (cs : List Char) :
    (ParseUint ('-' :: cs)).2 = some ⟨"ParseUint", '-' :: cs, .ErrSyntax⟩ := by
  have : digitOf '-' = none := by decide
  simp [ParseUint, parseUintLoop, this]

end Strconv

/-- On every text that `ParseUint` accepts, `parseUint64` returns the same value. -/
theorem parseUint64_of_ParseUint (s : List Char) (v : Nat)
    (h : Strconv.ParseUint s = (v, none)) : parseUint64 s = (v, none) := by
  unfold parseUint64
  by_cases hm : s.head? = some '-'
  · exfalso
    cases s with
    | nil => simp at hm
    | cons c cs =>
      simp only [List.head?_cons, Option.some.injEq] at hm
      subst hm
      have := Strconv.ParseUint_minus cs
      rw [h] at this
      cases this
  · rw [if_neg hm]
    exact h

/-! ## Claims on `parseUint64` -/

/-- C10: for every `uint64` value `u`, `parseUint64` applied to the canonical base-10
text of `u` returns `(u, nil)`; and on every string that `strconv.ParseUint(s, 10, 64)`
accepts, `parseUint64` returns the same value with no error. -/
theorem parseUint64_unsigned (u : Nat) (hu : u < 2 ^ 64) :
    parseUint64 (Strconv.FormatUint u) = (u, none) ∧
    ∀ (s : List Char) (v : Nat), Strconv.ParseUint s = (v, none) → parseUint64 s = (v, none) :=
  ⟨parseUint64_of_ParseUint _ _ (Strconv.ParseUint_FormatUint u hu), parseUint64_of_ParseUint⟩

/-- Witness of C10: the text `18446744073709551615` parses to `2^64 - 1`. -/
theorem parseUint64_unsigned_witness :
    Strconv.FormatUint (2 ^ 64 - 1) = "18446744073709551615".toList ∧
    parseUint64 (Strconv.FormatUint (2 ^ 64 - 1)) = (2 ^ 64 - 1, none) ∧
    parseUint64 "18446744073709551615".toList = (2 ^ 64 - 1, none) :=
  ⟨by simp [Strconv.FormatUint],
    (parseUint64_unsigned (2 ^ 64 - 1) (by norm_num)).1,
    (parseUint64_unsigned (2 ^ 64 - 1) (by norm_num)).2 _ _ (by decide)⟩

/-! ## Further claims on `toFloat64` -/

/-- C15: for every value of kind `byte`, `int16`, `int32`, `uint16` or `uint32`,
`toFloat64` returns `ok = true` and a float exactly equal to the integer; for every
`float64` input `x` it returns `(x, true)`, and for every `float32` input its exact
widening, the same datum, with `ok = true`. -/
theorem toFloat64_small_kinds :
    (∀ i : Nat, (Value.byte i).InRange →
      (toFloat64 (.byte i)).2 = true ∧ (toFloat64 (.byte i)).1.toRat = some (i : ℚ)) ∧
    (∀ i : Int, (Value.int16 i).InRange →
      (toFloat64 (.int16 i)).2 = true ∧ (toFloat64 (.int16 i)).1.toRat = some (i : ℚ)) ∧
    (∀ i : Int, (Value.int32 i).InRange →
      (toFloat64 (.int32 i)).2 = true ∧ (toFloat64 (.int32 i)).1.toRat = some (i : ℚ)) ∧
    (∀ i : Nat, (Value.uint16 i).InRange →
      (toFloat64 (.uint16 i)).2 = true ∧ (toFloat64 (.uint16 i)).1.toRat = some (i : ℚ)) ∧
    (∀ i : Nat, (Value.uint32 i).InRange →
      (toFloat64 (.uint32 i)).2 = true ∧ (toFloat64 (.uint32 i)).1.toRat = some (i : ℚ)) ∧
    (∀ x : IEEE, toFloat64 (.float64 x) = (x, true)) ∧
    (∀ x : IEEE, toFloat64 (.float32 x) = (x, true)) := by
  have hN : ∀ i : Nat, i < 2 ^ 53 → (float64OfNat false i).toRat = some (i : ℚ) := by
    intro i hi
    rw [float64OfNat_exact false i hi]
    simp
  refine ⟨?_, ?_, ?_, ?_, ?_, fun _ => rfl, fun _ => rfl⟩
  · intro i hi
    simp only [Value.InRange] at hi
    exact ⟨rfl, hN i (by omega)⟩
  · intro i hi
    simp only [Value.InRange] at hi
    exact ⟨rfl, float64OfInt_exact i (by omega) (by omega)⟩
  · intro i hi
    simp only [Value.InRange] at hi
    exact ⟨rfl, float64OfInt_exact i (by omega) (by omega)⟩
  · intro i hi
    simp only [Value.InRange] at hi
    exact ⟨rfl, hN i (by omega)⟩
  · intro i hi
    simp only [Value.InRange] at hi
    exact ⟨rfl, hN i (by omega)⟩

/-- Witness of C15: the largest `byte` and `uint32`, the smallest `int32`. -/
theorem toFloat64_small_kinds_witness :
    (toFloat64 (.byte 255)).1.toRat = some (((255 : Nat)) : ℚ) ∧
    (toFloat64 (.int32 (-2 ^ 31))).1.toRat = some (((-2 ^ 31 : Int)) : ℚ) ∧
    (toFloat64 (.uint32 (2 ^ 32 - 1))).1.toRat = some (((2 ^ 32 - 1 : Nat)) : ℚ) :=
  ⟨(toFloat64_small_kinds.1 255 (by norm_num [Value.InRange])).2,
    (toFloat64_small_kinds.2.2.1 (-2 ^ 31) (by norm_num [Value.InRange])).2,
    (toFloat64_small_kinds.2.2.2.2.1 (2 ^ 32 - 1) (by norm_num [Value.InRange])).2⟩

/-! ## Further claims on the container-ID detector -/

/-- C18: for every state of the cgroup file, missing or of any content, the copy of
`FindContainerID` in `ddtrace/tracer/util.go` and the copy in `internal/container.go`
with `cgroupPath` at its initial value return the same string. -/
theorem findContainerID_copies_agree (fs : FS) :
    Tracer.FindContainerID fs = Internal.FindContainerID fs Internal.cgroupPath := by
  unfold Tracer.FindContainerID Internal.FindContainerID Internal.cgroupPath
  cases fs "/proc/self/cgroup" with
  | none => rfl
  | some lines => exact Tracer.scanLoop_eq (scanTokens lines)

/-! ## The digit loop in full -/

namespace Strconv

theorem isDigit_toNat (c : Char) : isDigit c = true ↔ 48 ≤ c.toNat ∧ c.toNat ≤ 57 := by
  simp only [isDigit, Bool.and_eq_true, decide_eq_true_eq, Char.le_def]
  rfl

theorem digitOf_of_isDigit (c : Char) (h : isDigit c = true) :
    digitOf c = some (c.toNat - '0'.toNat) ∧ c.toNat - '0'.toNat < 10 := by
  have h2 := (isDigit_toNat c).mp h
  simp only [isDigit, Bool.and_eq_true, decide_eq_true_eq] at h
  have e : '0'.toNat = 48 := rfl
  refine ⟨by simp only [digitOf, if_pos h], ?_⟩
  omega

theorem digitOf_of_not_isDigit (c : Char) (h : isDigit c = false) :
    digitOf c = none ∨ ∃ d, digitOf c = some d ∧ 10 ≤ d := by
  have hc : ¬ ('0' ≤ c ∧ c ≤ '9') := by
    intro hh
    simp [isDigit, hh.1, hh.2] at h
  simp only [digitOf, if_neg hc]
  split
  · exact Or.inr ⟨_, rfl, by omega⟩
  · exact Or.inl rfl

theorem le_foldl_chars : ∀ (cs : List Char) (n : Nat),
    n ≤ cs.foldl (fun a c => a * 10 + (c.toNat - '0'.toNat)) n
  | [], n => Nat.le_refl n
  | c :: cs, n => by
    have := le_foldl_chars cs (n * 10 + (c.toNat - '0'.toNat))
    simp only [List.foldl_cons]
    omega

/-- The digit loop succeeds on a text of decimal digits whose value fits in 64 bits. -/
theorem parseUintLoop_ok (s0 : List Char) : ∀ (cs : List Char) (n : Nat),
    cs.all isDigit = true →
    cs.foldl (fun a c => a * 10 + (c.toNat - '0'.toNat)) n < 2 ^ 64 →
    parseUintLoop s0 cs n = (cs.foldl (fun a c => a * 10 + (c.toNat - '0'.toNat)) n, none)
  | [], n, _, _ => rfl
  | c :: cs, n, hd, hv => by
    simp only [List.all_cons, Bool.and_eq_true] at hd
    obtain ⟨hdo, hlt⟩ := digitOf_of_isDigit c hd.1
    have hle := le_foldl_chars cs (n * 10 + (c.toNat - '0'.toNat))
    simp only [List.foldl_cons] at hv ⊢
    have hn1 : n * 10 + (c.toNat - '0'.toNat) < 2 ^ 64 := lt_of_le_of_lt hle hv
    have ih := parseUintLoop_ok s0 cs (n * 10 + (c.toNat - '0'.toNat)) hd.2 hv
    simp only [parseUintLoop, hdo]
    have c1 : ¬ c.toNat - '0'.toNat ≥ 10 := by omega
    have c2 : ¬ n ≥ maxUint64 / 10 + 1 := by
      simp only [maxUint64]
      omega
    have e1 : n * 10 % 2 ^ 64 = n * 10 := Nat.mod_eq_of_lt (by omega)
    have e2 : (n * 10 + (c.toNat - '0'.toNat)) % 2 ^ 64 = n * 10 + (c.toNat - '0'.toNat) :=
      Nat.mod_eq_of_lt hn1
    have c3 : ¬ (n * 10 + (c.toNat - '0'.toNat) < n * 10 ∨
        n * 10 + (c.toNat - '0'.toNat) > maxUint64) := by
      simp only [maxUint64]
      omega
    rw [if_neg c1, if_neg c2]
    simp only [e1, e2, if_neg c3]
    exact ih

/-- The digit loop fails, with a syntax error and the value `0` or with a range error
and the largest value, on every other text. -/
theorem parseUintLoop_err (s0 : List Char) : ∀ (cs : List Char) (n : Nat), n < 2 ^ 64 →
    ¬ (cs.all isDigit = true ∧
      cs.foldl (fun a c => a * 10 + (c.toNat - '0'.toNat)) n < 2 ^ 64) →
    parseUintLoop s0 cs n = (0, some ⟨"ParseUint", s0, .ErrSyntax⟩) ∨
    parseUintLoop s0 cs n = (maxUint64, some ⟨"ParseUint", s0, .ErrRange⟩)
  | [], n, hn, h => by
    exfalso
    exact h ⟨rfl, hn⟩
  | c :: cs, n, hn, h => by
    cases hd : isDigit c with
    | false =>
      rcases digitOf_of_not_isDigit c hd with hnone | ⟨d, hsome, hd10⟩
      · left
        simp only [parseUintLoop, hnone]
      · left
        simp only [parseUintLoop, hsome]
        rw [if_pos hd10]
    | true =>
      obtain ⟨hdo, hlt⟩ := digitOf_of_isDigit c hd
      have hle := le_foldl_chars cs (n * 10 + (c.toNat - '0'.toNat))
      simp only [List.all_cons, hd, Bool.true_and, List.foldl_cons] at h
      simp only [parseUintLoop, hdo]
      have c1 : ¬ c.toNat - '0'.toNat ≥ 10 := by omega
      rw [if_neg c1]
      by_cases c2 : n ≥ maxUint64 / 10 + 1
      · right
        rw [if_pos c2]
      · rw [if_neg c2]
        have hc2 : n * 10 < 2 ^ 64 := by
          simp only [maxUint64] at c2
          omega
        have e1 : n * 10 % 2 ^ 64 = n * 10 := Nat.mod_eq_of_lt hc2
        simp only [e1]
        by_cases hov : n * 10 + (c.toNat - '0'.toNat) < 2 ^ 64
        · have e2 : (n * 10 + (c.toNat - '0'.toNat)) % 2 ^ 64 =
              n * 10 + (c.toNat - '0'.toNat) := Nat.mod_eq_of_lt hov
          have c3 : ¬ (n * 10 + (c.toNat - '0'.toNat) < n * 10 ∨
              n * 10 + (c.toNat - '0'.toNat) > maxUint64) := by
            simp only [maxUint64]
            omega
          simp only [e2, if_neg c3]
          exact parseUintLoop_err s0 cs (n * 10 + (c.toNat - '0'.toNat)) hov h
        · right
          have c3 : (n * 10 + (c.toNat - '0'.toNat)) % 2 ^ 64 < n * 10 ∨
              (n * 10 + (c.toNat - '0'.toNat)) % 2 ^ 64 > maxUint64 := by
            left
            omega
          rw [if_pos c3]

/-- `ParseUint` in closed form: it accepts exactly the non-empty texts of decimal
digits whose value fits in 64 bits, and returns that value. -/
theorem ParseUint_ok (s : List Char) (h : isDigits s = true) (hv : decimalValue s < 2 ^ 64) :
    ParseUint s = (decimalValue s, none) := by
  simp only [isDigits, Bool.and_eq_true, bne_iff_ne, ne_eq] at h
  rw [ParseUint, if_neg h.1]
  exact parseUintLoop_ok s s 0 h.2 hv

theorem ParseUint_err (s : List Char) (h : ¬ (isDigits s = true ∧ decimalValue s < 2 ^ 64)) :
    ParseUint s = (0, some ⟨"ParseUint", s, .ErrSyntax⟩) ∨
    ParseUint s = (maxUint64, some ⟨"ParseUint", s, .ErrRange⟩) := by
  by_cases hs : s = []
  · left
    rw [ParseUint, if_pos hs]
  · rw [ParseUint, if_neg hs]
    apply parseUintLoop_err s s 0 (by norm_num)
    intro hh
    apply h
    simp only [isDigits, Bool.and_eq_true, bne_iff_ne, ne_eq]
    exact ⟨⟨hs, hh.1⟩, hh.2⟩

end Strconv

namespace Strconv

theorem toInt64_neg_of_le (un : Nat) (h : un ≤ 2 ^ 63) :
    toInt64 (-toInt64 (un : Int)) = -(un : Int) := by
  unfold toInt64
  omega

theorem toInt64_of_lt (un : Nat) (h : un < 2 ^ 63) : toInt64 (un : Int) = (un : Int) := by
  unfold toInt64
  omega

/-- `ParseInt` on a minus sign followed by decimal digits of value at most `2 ^ 63`. -/
theorem ParseInt_minus_ok (cs : List Char) (h : isDigits cs = true)
    (hv : decimalValue cs ≤ 2 ^ 63) :
    ParseInt ('-' :: cs) = (-(decimalValue cs : Int), none) := by
  have hp := ParseUint_ok cs h (by omega)
  have c2 : decimalValue cs ≤ 9223372036854775808 := by omega
  simp [ParseInt, hp, c2, toInt64_neg_of_le _ hv]

/-- `ParseInt` fails on a minus sign followed by anything else. -/
theorem ParseInt_minus_err (cs : List Char)
    (h : ¬ (isDigits cs = true ∧ decimalValue cs ≤ 2 ^ 63)) :
    (ParseInt ('-' :: cs)).2 ≠ none := by
  by_cases hd : isDigits cs = true ∧ decimalValue cs < 2 ^ 64
  · have hp := ParseUint_ok cs hd.1 hd.2
    have c2 : 9223372036854775808 < decimalValue cs := by
      by_contra hc
      exact h ⟨hd.1, by omega⟩
    simp [ParseInt, hp, c2]
  · rcases ParseUint_err cs hd with hp | hp
    · simp [ParseInt, hp]
    · simp [ParseInt, hp, maxUint64]

end Strconv

theorem isDigits_minus (cs : List Char) : isDigits ('-' :: cs) = false := by
  have : isDigit '-' = false := by decide
  simp [isDigits, this]

theorem parseUint64_error (s : List Char) :
    (parseUint64 s).2 =
      if s.head? = some '-' then (Strconv.ParseInt s).2 else (Strconv.ParseUint s).2 := by
  unfold parseUint64
  by_cases h : s.head? = some '-'
  · rw [if_pos h, if_pos h]
    rcases hp : Strconv.ParseInt s with ⟨v, _ | e⟩ <;> rfl
  · rw [if_neg h, if_neg h]

theorem parseUint64_minus_ok (cs : List Char) (h : isDigits cs = true)
    (hv : decimalValue cs ≤ 2 ^ 63) :
    parseUint64 ('-' :: cs) = ((-(decimalValue cs : Int) % 2 ^ 64).toNat, none) := by
  simp [parseUint64, Strconv.ParseInt_minus_ok cs h hv]

theorem parseUint64_minus_err (cs : List Char)
    (h : ¬ (isDigits cs = true ∧ decimalValue cs ≤ 2 ^ 63)) :
    (parseUint64 ('-' :: cs)).2 ≠ none := by
  rw [parseUint64_error]
  simpa using Strconv.ParseInt_minus_err cs h

theorem decimalValue_FormatUint (u : Nat) (hu : u < 2 ^ 64) :
    isDigits (Strconv.FormatUint u) = true ∧ decimalValue (Strconv.FormatUint u) = u := by
  have hp := Strconv.ParseUint_FormatUint u hu
  by_cases hd : isDigits (Strconv.FormatUint u) = true ∧
      decimalValue (Strconv.FormatUint u) < 2 ^ 64
  · have := Strconv.ParseUint_ok _ hd.1 hd.2
    rw [hp] at this
    exact ⟨hd.1, (congrArg Prod.fst this).symm⟩
  · rcases Strconv.ParseUint_err _ hd with he | he <;>
    · rw [hp] at he
      cases he

theorem foldl_digits_eq_zero : ∀ (cs : List Char) (n : Nat), cs.all isDigit = true →
    (cs.foldl (fun a c => a * 10 + (c.toNat - '0'.toNat)) n = 0 ↔ n = 0 ∧ ∀ c ∈ cs, c = '0')
  | [], n, _ => by simp
  | c :: cs, n, h => by
    simp only [List.all_cons, Bool.and_eq_true] at h
    have h2 := (Strconv.isDigit_toNat c).mp h.1
    have e : '0'.toNat = 48 := rfl
    rw [List.foldl_cons, foldl_digits_eq_zero cs _ h.2]
    have hc : c.toNat = 48 ↔ c = '0' := by
      constructor
      · intro hh
        rw [← Char.ofNat_toNat c, hh]
      · rintro rfl
        rfl
    simp only [List.mem_cons, forall_eq_or_imp, ← hc]
    constructor
    · rintro ⟨h0, hall⟩
      exact ⟨by omega, by omega, hall⟩
    · rintro ⟨h0, h1, hall⟩
      exact ⟨by omega, hall⟩

/-! ## Further claims on `parseUint64` -/

/-- C11: for every `int64` value `i < 0`, `parseUint64` applied to the base-10 text of
`i` returns `(i + 2^64, nil)`; hence for every `uint64` value `u ≥ 2^63` the signed
text of `int64(u)` and the unsigned text of `u` parse to the same value, `u`. -/
theorem parseUint64_negative (i : Int) (hlo : -2 ^ 63 ≤ i) (hneg : i < 0) :
    parseUint64 (Strconv.FormatInt i) = ((i + 2 ^ 64).toNat, none) ∧
    ∀ u : Nat, 2 ^ 63 ≤ u → u < 2 ^ 64 →
      parseUint64 (Strconv.FormatInt (Strconv.toInt64 u)) = (u, none) ∧
      parseUint64 (Strconv.FormatUint u) = (u, none) := by
  have key : ∀ j : Int, -2 ^ 63 ≤ j → j < 0 →
      parseUint64 (Strconv.FormatInt j) = ((j + 2 ^ 64).toNat, none) := by
    intro j hjlo hjneg
    have hn : j.natAbs ≤ 2 ^ 63 := by omega
    obtain ⟨hd, hval⟩ := decimalValue_FormatUint j.natAbs (by omega)
    have hj : (-(j.natAbs : Int) % 2 ^ 64).toNat = (j + 2 ^ 64).toNat := by omega
    rw [Strconv.FormatInt, if_pos hjneg, parseUint64_minus_ok _ hd (by omega), hval, hj]
  refine ⟨key i hlo hneg, ?_⟩
  intro u h1 h2
  have ht : Strconv.toInt64 u = (u : Int) - 2 ^ 64 := by
    unfold Strconv.toInt64
    omega
  refine ⟨?_, parseUint64_of_ParseUint _ _ (Strconv.ParseUint_FormatUint u h2)⟩
  have hu : ((u : Int) - 2 ^ 64 + 2 ^ 64).toNat = u := by omega
  rw [ht, key ((u : Int) - 2 ^ 64) (by omega) (by omega), hu]

/-- Witness of C11: the text `-1` parses to `2^64 - 1`. -/
theorem parseUint64_negative_witness :
    Strconv.FormatInt (-1) = "-1".toList ∧
    parseUint64 (Strconv.FormatInt (-1)) = (2 ^ 64 - 1, none) ∧
    parseUint64 "-1".toList = (2 ^ 64 - 1, none) :=
  ⟨by simp [Strconv.FormatInt, Strconv.FormatUint],
    (parseUint64_negative (-1) (by norm_num) (by norm_num)).1,
    by decide⟩

/-- C12 (counterexample): `ParseInt` accepts the text `+1`, written with a leading
plus sign, with value `1`, and `parseUint64` fails on it. -/
theorem parseUint64_rejects_plus_sign :
    Strconv.ParseInt "+1".toList = (1, none) ∧
    parseUint64 "+1".toList = (0, some ⟨"ParseUint", "+1".toList, .ErrSyntax⟩) := by
  decide

/-- C12 (amended): for every string `s` that `strconv.ParseInt(s, 10, 64)` accepts
with value `i` and that does not start with a plus sign, `parseUint64(s)` succeeds and
returns `uint64(i)`, the value `i` modulo `2^64`. -/
theorem parseUint64_of_ParseInt (s : List Char) (i : Int)
    (h : Strconv.ParseInt s = (i, none)) (hplus : s.head? ≠ some '+') :
    parseUint64 s = ((i % 2 ^ 64).toNat, none) := by
  cases s with
  | nil => simp [Strconv.ParseInt] at h
  | cons c cs =>
    by_cases hm : c = '-'
    · subst hm
      simp [parseUint64, h]
    · have hp : c ≠ '+' := by
        intro hc
        exact hplus (by simp [hc])
      have hpar : parseUint64 (c :: cs) = Strconv.ParseUint (c :: cs) := by
        simp [parseUint64, hm]
      by_cases hd : isDigits (c :: cs) = true ∧ decimalValue (c :: cs) < 2 ^ 64
      · have hu := Strconv.ParseUint_ok _ hd.1 hd.2
        by_cases hc : 9223372036854775808 ≤ decimalValue (c :: cs)
        · simp [Strconv.ParseInt, hm, hp, hu, hc] at h
        · have ht := Strconv.toInt64_of_lt (decimalValue (c :: cs)) (by omega)
          simp [Strconv.ParseInt, hm, hp, hu, hc, ht] at h
          rw [hpar, hu, ← h]
          have : (((decimalValue (c :: cs) : Nat) : Int) % 2 ^ 64).toNat =
              decimalValue (c :: cs) := by omega
          rw [this]
      · rcases Strconv.ParseUint_err _ hd with he | he
        · simp [Strconv.ParseInt, hm, hp, he] at h
        · simp [Strconv.ParseInt, hm, hp, he, Strconv.maxUint64] at h

/-- Witness of the amended C12: a text with a minus sign and a text without sign. -/
theorem parseUint64_of_ParseInt_witness :
    parseUint64 "-5".toList = (2 ^ 64 - 5, none) ∧ parseUint64 "42".toList = (42, none) :=
  ⟨(parseUint64_of_ParseInt "-5".toList (-5) (by decide) (by decide)).trans (by decide),
    (parseUint64_of_ParseInt "42".toList 42 (by decide) (by decide)).trans (by decide)⟩

/-- C13: `parseUint64(s)` returns a nil error if and only if `s` is a non-empty string
of ASCII decimal digits of value at most `2^64 - 1`, or a minus sign followed by a
non-empty string of ASCII decimal digits of value at most `2^63`; the error, if any,
is the one of the underlying parser: `ParseInt` after a minus sign, `ParseUint`
otherwise. -/
theorem parseUint64_nil_error_iff (s : List Char) :
    ((parseUint64 s).2 = none ↔
      (isDigits s = true ∧ decimalValue s ≤ 2 ^ 64 - 1) ∨
      (s.head? = some '-' ∧ isDigits s.tail = true ∧ decimalValue s.tail ≤ 2 ^ 63)) ∧
    (parseUint64 s).2 =
      (if s.head? = some '-' then (Strconv.ParseInt s).2 else (Strconv.ParseUint s).2) := by
  refine ⟨?_, parseUint64_error s⟩
  by_cases hm : s.head? = some '-'
  · obtain ⟨cs, rfl⟩ : ∃ cs, s = '-' :: cs := by
      cases s with
      | nil => simp at hm
      | cons c cs =>
        simp only [List.head?_cons, Option.some.injEq] at hm
        exact ⟨cs, by rw [hm]⟩
    constructor
    · intro h
      right
      refine ⟨rfl, ?_⟩
      by_contra hc
      exact parseUint64_minus_err cs hc h
    · rintro (⟨hd, -⟩ | ⟨-, hd, hv⟩)
      · rw [isDigits_minus] at hd
        cases hd
      · rw [parseUint64_minus_ok cs hd hv]
  · have hpar : parseUint64 s = Strconv.ParseUint s := by
      simp [parseUint64, hm]
    rw [hpar]
    constructor
    · intro h
      left
      by_contra hc
      have hc1 : ¬ (isDigits s = true ∧ decimalValue s < 2 ^ 64) := by
        intro hh
        exact hc ⟨hh.1, by omega⟩
      rcases Strconv.ParseUint_err s hc1 with he | he <;>
      · rw [he] at h
        cases h
    · rintro (⟨hd, hv⟩ | ⟨hh, -, -⟩)
      · rw [Strconv.ParseUint_ok s hd (by omega)]
      · exact absurd hh hm

/-- Witness of C13: the error on each of six rejected texts, and two accepted ones. -/
theorem parseUint64_nil_error_iff_witness :
    (parseUint64 "abc".toList).2 ≠ none ∧ (parseUint64 "".toList).2 ≠ none ∧
    (parseUint64 "-".toList).2 ≠ none ∧ (parseUint64 "1.5".toList).2 ≠ none ∧
    (parseUint64 "18446744073709551616".toList).2 ≠ none ∧
    (parseUint64 "-9223372036854775809".toList).2 ≠ none ∧
    (parseUint64 "18446744073709551615".toList).2 = none ∧
    (parseUint64 "-9223372036854775808".toList).2 = none :=
  ⟨fun h => absurd ((parseUint64_nil_error_iff _).1.mp h) (by decide),
    fun h => absurd ((parseUint64_nil_error_iff _).1.mp h) (by decide),
    fun h => absurd ((parseUint64_nil_error_iff _).1.mp h) (by decide),
    fun h => absurd ((parseUint64_nil_error_iff _).1.mp h) (by decide),
    fun h => absurd ((parseUint64_nil_error_iff _).1.mp h) (by decide),
    fun h => absurd ((parseUint64_nil_error_iff _).1.mp h) (by decide),
    (parseUint64_nil_error_iff _).1.mpr (Or.inl (by decide)),
    (parseUint64_nil_error_iff _).1.mpr (Or.inr (by decide))⟩

/-- C20: for every string beginning with a minus sign on which `parseUint64`
succeeds, the returned value is `0`, and that only when every character after the
sign is `0`, or it is at least `2^63` (and below `2^64`): such a text never parses to
a value in the range `1 .. 2^63 - 1`. -/
theorem parseUint64_minus_range (cs : List Char) (h : (parseUint64 ('-' :: cs)).2 = none) :
    ((parseUint64 ('-' :: cs)).1 = 0 ∨
      (2 ^ 63 ≤ (parseUint64 ('-' :: cs)).1 ∧ (parseUint64 ('-' :: cs)).1 < 2 ^ 64)) ∧
    ((parseUint64 ('-' :: cs)).1 = 0 ↔ ∀ c ∈ cs, c = '0') := by
  have hd : isDigits cs = true ∧ decimalValue cs ≤ 2 ^ 63 := by
    by_contra hc
    exact parseUint64_minus_err cs hc h
  have hz : decimalValue cs = 0 ↔ ∀ c ∈ cs, c = '0' := by
    have hall : cs.all isDigit = true := by
      have := hd.1
      simp only [isDigits, Bool.and_eq_true] at this
      exact this.2
    have := foldl_digits_eq_zero cs 0 hall
    simpa [decimalValue] using this
  rw [parseUint64_minus_ok cs hd.1 hd.2]
  simp only []
  rw [← hz]
  have hv := hd.2
  refine ⟨?_, ?_⟩ <;> omega

/-- Witness of C20: the texts `-0`, `-1` and `-9223372036854775808`. -/
theorem parseUint64_minus_range_witness :
    (parseUint64 "-0".toList).1 = 0 ∧
    2 ^ 63 ≤ (parseUint64 "-1".toList).1 ∧
    2 ^ 63 ≤ (parseUint64 "-9223372036854775808".toList).1 :=
  ⟨(parseUint64_minus_range "0".toList (by decide)).2.mpr (by decide),
    ((parseUint64_minus_range "1".toList (by decide)).1.resolve_left (by decide)).1,
    ((parseUint64_minus_range "9223372036854775808".toList (by decide)).1.resolve_left
      (by decide)).1⟩

/-! ## Lines considered by the loop -/

theorem head?_eq_cons {l : List Char} {a : Char} (h : l.head? = some a) : l = a :: l.drop 1 := by
  cases l with
  | nil => simp at h
  | cons x xs =>
    simp only [List.head?_cons, Option.some.injEq] at h
    simp [h]

/-- A line with a path is a cgroup entry whose remainder is the path. -/
theorem isEntry_of_linePath (s R : List Char) (h : linePath s = some R) : IsEntry s R := by
  unfold linePath at h
  simp only [] at h
  split at h
  · rename_i hc
    simp only [Bool.and_eq_true, bne_iff_ne, ne_eq, beq_iff_eq] at hc
    obtain ⟨⟨⟨⟨hD, h1⟩, h2⟩, hR⟩, -⟩ := hc
    simp only [Option.some.injEq] at h
    have e1 := head?_eq_cons h1
    have e2 := head?_eq_cons h2
    rw [h] at e2 hR
    refine ⟨s.takeWhile isDigit, ((s.dropWhile isDigit).drop 1).takeWhile notColon, ?_, hD, ?_, ?_,
      hR⟩
    · rw [← e2, List.takeWhile_append_dropWhile, ← e1, List.takeWhile_append_dropWhile]
    · intro c hc
      exact List.mem_takeWhile_imp hc
    · intro hc
      have := List.mem_takeWhile_imp hc
      simp [notColon] at this
  · cases h

theorem linePath_of_isEntry (s R : List Char) (hnl : '\n' ∉ s) (h : IsEntry s R) :
    linePath s = some R := by
  obtain ⟨D, C, rfl, hD, hDd, hC, hR⟩ := h
  apply linePath_of_parts D C R hD hDd hC hR
  intro hc
  apply hnl
  simp [hc]

theorem isEntry_unique (s R1 R2 : List Char) (h1 : IsEntry s R1) (h2 : IsEntry s R2)
    (hnl : '\n' ∉ s) : R1 = R2 := by
  have e1 := linePath_of_isEntry s R1 hnl h1
  have e2 := linePath_of_isEntry s R2 hnl h2
  rw [e1] at e2
  exact Option.some.inj e2


/-! ## The match is the final token -/

theorem prefixShape_at : ∀ (sh : List (Char → Bool)) (Q : List Char) (c : Char) (r : List Char)
    (p : Char → Bool), prefixShape sh (Q ++ c :: r) = true → sh.get? Q.length = some p →
    p c = true
  | [], _, _, _, _, _, h => by simp at h
  | q :: qs, [], c, r, p, hp, h => by
    simp only [List.nil_append, prefixShape, Bool.and_eq_true] at hp
    simp only [List.length_nil, List.get?_cons_zero, Option.some.injEq] at h
    rw [← h]
    exact hp.1
  | q :: qs, x :: Q, c, r, p, hp, h => by
    simp only [List.cons_append, prefixShape, Bool.and_eq_true] at hp
    simp only [List.length_cons, List.get?_cons_succ] at h
    exact prefixShape_at qs Q c r p hp.2 h

theorem isDelim_not_isHex (c : Char) (h : isDelim c = true) : isHex c = false := by
  simp only [isDelim, Bool.or_eq_true, beq_iff_eq] at h
  rcases h with rfl | rfl <;> decide

/-- A UUID-like token has a delimiter after its first eight characters. -/
theorem uuid_split (t : List Char) (h : matchesShape uuidShape t = true) :
    ∃ a d b, t = a ++ d :: b ∧ a.length = 8 ∧ isDelim d = true := by
  have hl : t.length = 36 := matchesShape_length _ _ h
  have hlt : 8 < t.length := by omega
  have e : t = t.take 8 ++ t[8] :: t.drop 9 := by
    rw [← List.drop_eq_getElem_cons hlt, List.take_append_drop]
  refine ⟨t.take 8, t[8], t.drop 9, e, by simp; omega, ?_⟩
  have hp := matchesShape_prefix _ _ h
  rw [e] at hp
  exact prefixShape_at uuidShape (t.take 8) t[8] (t.drop 9) isDelim hp (by
    have : (t.take 8).length = 8 := by simp; omega
    rw [this]
    rfl)

/-- The letter `s` does not occur in a token. -/
theorem isContainerID_no_s (t : List Char) (h : isContainerID t = true) : 's' ∉ t := by
  intro hc
  have hx : isHex 's' = false := by decide
  have hd : isDelim 's' = false := by decide
  rcases isContainerID_chars t h _ hc with h1 | h1
  · rw [hx] at h1; cases h1
  · rw [hd] at h1; cases h1

/-- No match attempt succeeds on a text that properly extends a token to the left. -/
theorem endsID_longer (q t : List Char) (hq : q ≠ []) (h : isContainerID t = true) :
    endsID (q ++ t) = false := by
  have hl := isContainerID_length t h
  have hql : 0 < q.length := List.length_pos.mpr hq
  cases he : endsID (q ++ t)
  · rfl
  exfalso
  have hscope : ∀ k, k + 5 = (q ++ t).length → (q ++ t).drop k = "scope".toList → False := by
    intro k hk hdrop
    have hkq : q.length ≤ k := by
      simp only [List.length_append] at hk
      omega
    rw [List.drop_append_eq_append_drop, List.drop_eq_nil_of_le hkq, List.nil_append] at hdrop
    have hs : 's' ∈ t.drop (k - q.length) := by
      rw [hdrop]
      decide
    exact isContainerID_no_s t h (List.mem_of_mem_drop hs)
  simp only [endsID, Bool.or_eq_true, Bool.and_eq_true, beq_iff_eq] at he
  rcases he with ⟨hp, hlen | ⟨hlen, hs⟩⟩ | ⟨hp, hlen | ⟨hlen, hs⟩⟩
  · simp only [List.length_append] at hlen
    omega
  · have h2 := scope_tail ((q ++ t).drop 36) (by simp only [List.length_drop]; omega) hs
    rw [List.drop_drop] at h2
    exact hscope _ (by omega) h2
  · simp only [List.length_append] at hlen
    have ht : t.length = 36 := by omega
    have hu : matchesShape uuidShape t = true := by
      simp only [isContainerID, Bool.or_eq_true] at h
      rcases h with h | h
      · exact h
      · have := matchesShape_length _ _ h
        have l64 : hex64Shape.length = 64 := rfl
        omega
    obtain ⟨a, d, b, rfl, ha, hd⟩ := uuid_split t hu
    rw [← List.append_assoc] at hp
    obtain ⟨p, hm, hc⟩ := prefixShape_mid hex64Shape (q ++ a) d b hp (by
      have l64 : hex64Shape.length = 64 := rfl
      simp only [List.length_append, List.length_cons] at ht ⊢
      omega)
    rw [hex64Shape_classes p hm, isDelim_not_isHex d hd] at hc
    cases hc
  · have h2 := scope_tail ((q ++ t).drop 64) (by simp only [List.length_drop]; omega) hs
    rw [List.drop_drop] at h2
    exact hscope _ (by omega) h2

/-- When the path ends in a token, the leftmost match is that token. -/
theorem firstSuffix_token (t : List Char) (h : isContainerID t = true) :
    ∀ q : List Char, firstSuffix endsID (q ++ t) = t
  | [] => firstSuffix_self endsID t (endsID_of_isContainerID t h)
  | c :: q => by
    have := endsID_longer (c :: q) t (by simp) h
    simp only [List.cons_append] at this
    simp [firstSuffix, this, firstSuffix_token t h q]

theorem firstSuffix_suffix (f : List Char → Bool) : ∀ p : List Char, firstSuffix f p <:+ p
  | [] => List.suffix_refl _
  | c :: cs => by
    rw [firstSuffix]
    split
    · exact List.suffix_refl _
    · exact (firstSuffix_suffix f cs).trans (List.suffix_cons c cs)

theorem isEntry_suffix (s R : List Char) (h : IsEntry s R) : R <:+ s := by
  obtain ⟨D, C, rfl, -⟩ := h
  exact ⟨D ++ ':' :: (C ++ [':']), by simp⟩

theorem linePath_of_submatch (l p : List Char)
    (h : FindStringSubmatch Internal.expLine l = [l, p]) : linePath l = some p := by
  rw [Internal.FindStringSubmatch_expLine] at h
  cases hp : linePath l with
  | none => rw [hp] at h; cases h
  | some r =>
    rw [hp] at h
    simp only [List.cons.injEq, and_true, true_and] at h
    rw [h]

/-- Lines that give no match are skipped. -/
theorem scanLoop_skip : ∀ (pre rest : List (List Char)),
    (∀ l ∈ pre, (FindStringSubmatch Internal.expLine l).length = 2 →
      endsInToken ((FindStringSubmatch Internal.expLine l).getD 1 []) = false ∧
      endsInScopedToken ((FindStringSubmatch Internal.expLine l).getD 1 []) = false) →
    Internal.scanLoop (pre ++ rest) = Internal.scanLoop rest
  | [], _, _ => rfl
  | l :: ls, rest, h => by
    have ih := scanLoop_skip ls rest (fun x hx => h x (List.mem_cons_of_mem _ hx))
    have hl := h l (List.mem_cons_self _ _)
    rw [List.cons_append, Internal.scanLoop_cons]
    rw [Internal.FindStringSubmatch_expLine] at hl
    cases hp : linePath l with
    | none => exact ih
    | some p =>
      rw [hp] at hl
      have := hl rfl
      simp only [List.getD_cons_succ, List.getD_cons_zero] at this
      simp [firstSuffix_endsID_nil p this.1 this.2, ih]

/-- A non-empty result is a suffix of the path of one of the lines. -/
theorem scanLoop_suffix : ∀ lines : List (List Char), Internal.scanLoop lines ≠ [] →
    ∃ line ∈ lines, ∃ R, linePath line = some R ∧ Internal.scanLoop lines <:+ R
  | [], h => absurd rfl h
  | l :: ls, h => by
    rw [Internal.scanLoop_cons] at h ⊢
    cases hp : linePath l with
    | none =>
      rw [hp] at h
      obtain ⟨line, hm, R, hR, hs⟩ := scanLoop_suffix ls h
      exact ⟨line, List.mem_cons_of_mem _ hm, R, hR, hs⟩
    | some p =>
      rw [hp] at h
      simp only [] at h ⊢
      by_cases hf : firstSuffix endsID p = []
      · simp only [hf, bne_self_eq_false, Bool.false_eq_true, if_false] at h ⊢
        obtain ⟨line, hm, R, hR, hs⟩ := scanLoop_suffix ls h
        exact ⟨line, List.mem_cons_of_mem _ hm, R, hR, hs⟩
      · have hne : (firstSuffix endsID p != []) = true := by simpa using hf
        simp only [hne, if_true]
        exact ⟨l, List.mem_cons_self _ _, p, hp, firstSuffix_suffix endsID p⟩

theorem matchesShape_replicate (p : Char → Bool) : ∀ (n : Nat) (t : List Char),
    t.length = n → (∀ c ∈ t, p c = true) → matchesShape (List.replicate n p) t = true
  | 0, [], _, _ => rfl
  | 0, _ :: _, h, _ => by simp at h
  | n + 1, [], h, _ => by simp at h
  | n + 1, c :: cs, h, hall => by
    simp only [List.length_cons, Nat.add_right_cancel_iff] at h
    simp only [List.replicate_succ, matchesShape, Bool.and_eq_true]
    exact ⟨hall c (List.mem_cons_self _ _),
      matchesShape_replicate p n cs h (fun x hx => hall x (List.mem_cons_of_mem _ hx))⟩

/-- The last 64 characters of a longer run of hexadecimal characters are a token. -/
theorem isContainerID_last64 (h : List Char) (hh : ∀ c ∈ h, isHex c = true)
    (hl : 64 < h.length) : isContainerID (h.drop (h.length - 64)) = true := by
  have : matchesShape hex64Shape (h.drop (h.length - 64)) = true := by
    apply matchesShape_replicate
    · simp only [List.length_drop]
      omega
    · intro c hc
      exact hh c (List.mem_of_mem_drop hc)
  simp [isContainerID, this]

namespace Tracer

theorem findContainerID_eq_internal (fs : FS) :
    FindContainerID fs = Internal.FindContainerID fs "/proc/self/cgroup" := by
  unfold FindContainerID Internal.FindContainerID
  cases fs "/proc/self/cgroup" with
  | none => rfl
  | some lines => exact scanLoop_eq (scanTokens lines)

end Tracer
/-! ## Lines beyond the buffer of the scanner -/

theorem takeWhile_replicate_neg (p : Char → Bool) (c : Char) (h : p c = false) :
    ∀ n : Nat, (List.replicate n c).takeWhile p = []
  | 0 => rfl
  | n + 1 => by simp [List.replicate_succ, List.takeWhile_cons, h]

theorem linePath_no_digit (s : List Char) (h : s.takeWhile isDigit = []) : linePath s = none := by
  simp [linePath, h]

theorem utf8Len_entry_ge (D C Q : List Char) (n : Nat) (c : Char) :
    n ≤ utf8Len (D ++ ':' :: (C ++ ':' :: (Q ++ List.replicate n c))) := by
  have h := length_le_utf8Len (D ++ ':' :: (C ++ ':' :: (Q ++ List.replicate n c)))
  simp only [List.length_append, List.length_cons, List.length_replicate] at h
  omega

theorem utf8Len_replicate_ge (n : Nat) (c : Char) : n ≤ utf8Len (List.replicate n c) := by
  have h := length_le_utf8Len (List.replicate n c)
  rw [List.length_replicate] at h
  exact h

section MoreContainerClaims

set_option maxRecDepth 100000

/-- C16: a line (a text without line feed) is considered for ID extraction if and only
if it consists of one or more ASCII decimal digits, a colon, a colon-free field, a
colon and a non-empty remainder; the token search is then run on exactly that
remainder, the text after the second colon; every other line is skipped and
contributes no result. -/
theorem line_considered_iff (line : List Char) (rest : List (List Char)) (hnl : '\n' ∉ line) :
    ((FindStringSubmatch Internal.expLine line).length = 2 ↔ ∃ R, IsEntry line R) ∧
    (∀ R, IsEntry line R →
      (FindStringSubmatch Internal.expLine line).getD 1 [] = R ∧
      Internal.scanLoop (line :: rest) =
        if FindString Internal.expContainerID R != [] then
          FindString Internal.expContainerID R
        else Internal.scanLoop rest) ∧
    ((¬ ∃ R, IsEntry line R) → Internal.scanLoop (line :: rest) = Internal.scanLoop rest) := by
  refine ⟨?_, ?_, ?_⟩
  · rw [Internal.FindStringSubmatch_expLine]
    constructor
    · intro h
      cases hp : linePath line with
      | none => rw [hp] at h; cases h
      | some R => exact ⟨R, isEntry_of_linePath line R hp⟩
    · rintro ⟨R, hR⟩
      rw [linePath_of_isEntry line R hnl hR]
      rfl
  · intro R hR
    have hp := linePath_of_isEntry line R hnl hR
    rw [Internal.scanLoop_cons, Internal.FindStringSubmatch_expLine, hp,
      Internal.FindString_expContainerID]
    exact ⟨rfl, rfl⟩
  · intro h
    rw [Internal.scanLoop_cons]
    cases hp : linePath line with
    | none => rfl
    | some R => exact absurd ⟨R, isEntry_of_linePath line R hp⟩ h

/-- Witness of C16: an entry line is considered, and a line that is a bare token,
without the two leading fields, is skipped. -/
theorem line_considered_iff_witness :
    (∃ R, IsEntry "10:hugetlb:/kubepods/burstable".toList R) ∧
    Internal.scanLoop
      ["0123456789abcdef0123456789abcdef0123456789abcdef0123456789abcdef".toList] = [] :=
  ⟨(line_considered_iff "10:hugetlb:/kubepods/burstable".toList [] (by decide)).1.mp (by decide),
    (line_considered_iff
      "0123456789abcdef0123456789abcdef0123456789abcdef0123456789abcdef".toList []
      (by decide)).2.2
      (mt (line_considered_iff
        "0123456789abcdef0123456789abcdef0123456789abcdef0123456789abcdef".toList []
        (by decide)).1.mpr (by decide))⟩

/-- A line ending in `.scope` before a line ending in a token: the loop returns at the
first of the two. -/
theorem scope_line_before_token_line :
    (FindStringSubmatch Internal.expLine
      "1:name=systemd:/system.slice/docker-0123456789abcdef0123456789abcdef0123456789abcdef0123456789abcdef.scope".toList).length = 2 ∧
    endsInToken ((FindStringSubmatch Internal.expLine
      "1:name=systemd:/system.slice/docker-0123456789abcdef0123456789abcdef0123456789abcdef0123456789abcdef.scope".toList).getD 1 []) = false ∧
    FindStringSubmatch Internal.expLine
      "10:hugetlb:/kubepods/fedcba9876543210fedcba9876543210fedcba9876543210fedcba9876543210".toList =
      ["10:hugetlb:/kubepods/fedcba9876543210fedcba9876543210fedcba9876543210fedcba9876543210".toList,
        "/kubepods/".toList ++
          "fedcba9876543210fedcba9876543210fedcba9876543210fedcba9876543210".toList] ∧
    isContainerID "fedcba9876543210fedcba9876543210fedcba9876543210fedcba9876543210".toList
      = true ∧
    Internal.FindContainerID
      (fun _ => some
        ["1:name=systemd:/system.slice/docker-0123456789abcdef0123456789abcdef0123456789abcdef0123456789abcdef.scope".toList,
          "10:hugetlb:/kubepods/fedcba9876543210fedcba9876543210fedcba9876543210fedcba9876543210".toList])
      Internal.cgroupPath ≠
      "fedcba9876543210fedcba9876543210fedcba9876543210fedcba9876543210".toList := by
  decide

/-- C14 (amended): for every cgroup file, if a line matches the line pattern and its
path ends in a container-ID token, that line and the lines before it are shorter than
65536 bytes each, and every earlier line either does not match the line pattern or has
a path that ends neither in a token nor in a token followed by one character and
`scope`, then `FindContainerID` returns that token, whatever the lines after it are; a
line is taken without its final carriage return, as the scanner hands it out. -/
theorem findContainerID_first_match (fs : FS) (path : String)
    (pre post : List (List Char)) (li q t : List Char)
    (hlen : ∀ l ∈ pre ++ [li], utf8Len l < maxScanTokenSize)
    (hpre : ∀ l ∈ pre, (FindStringSubmatch Internal.expLine (dropCR l)).length = 2 →
      endsInToken ((FindStringSubmatch Internal.expLine (dropCR l)).getD 1 []) = false ∧
      endsInScopedToken ((FindStringSubmatch Internal.expLine (dropCR l)).getD 1 []) = false)
    (hli : FindStringSubmatch Internal.expLine (dropCR li) = [dropCR li, q ++ t])
    (ht : isContainerID t = true)
    (hfs : fs path = some (pre ++ li :: post)) :
    Internal.FindContainerID fs path = t ∧
    (path = Internal.cgroupPath → Tracer.FindContainerID fs = t) := by
  have hne : t ≠ [] := by
    intro h
    rw [h] at ht
    exact absurd ht (by decide)
  have hpl : ∀ l ∈ pre, utf8Len l < maxScanTokenSize :=
    fun l hl => hlen l (List.mem_append_left _ hl)
  have hll : utf8Len li < maxScanTokenSize := hlen li (by simp)
  have hskip : ∀ x ∈ pre.map dropCR, (FindStringSubmatch Internal.expLine x).length = 2 →
      endsInToken ((FindStringSubmatch Internal.expLine x).getD 1 []) = false ∧
      endsInScopedToken ((FindStringSubmatch Internal.expLine x).getD 1 []) = false := by
    intro x hx
    obtain ⟨l, hl, rfl⟩ := List.mem_map.mp hx
    exact hpre l hl
  have key : Internal.FindContainerID fs path = t := by
    unfold Internal.FindContainerID
    rw [hfs]
    simp only []
    rw [scanTokens_append pre (li :: post) hpl, scanTokens_cons, if_pos hll,
      scanLoop_skip (pre.map dropCR) _ hskip, Internal.scanLoop_cons,
      linePath_of_submatch (dropCR li) _ hli]
    simp only [firstSuffix_token t ht q]
    simp [hne]
  refine ⟨key, ?_⟩
  intro hp
  subst hp
  rw [Tracer.findContainerID_eq_internal]
  exact key

/-- Witness of the amended C14: two lines without result, the line with the token,
and a later line with another token. -/
theorem findContainerID_first_match_witness :
    Internal.FindContainerID
      (fun _ => some
        ["garbage".toList, "1:cpu:/user.slice".toList,
          "10:hugetlb:/kubepods/fedcba9876543210fedcba9876543210fedcba9876543210fedcba9876543210".toList,
          "11:pids:/kubepods/0123456789abcdef0123456789abcdef0123456789abcdef0123456789abcdef".toList])
      Internal.cgroupPath =
      "fedcba9876543210fedcba9876543210fedcba9876543210fedcba9876543210".toList :=
  (findContainerID_first_match _ _ ["garbage".toList, "1:cpu:/user.slice".toList]
    ["11:pids:/kubepods/0123456789abcdef0123456789abcdef0123456789abcdef0123456789abcdef".toList]
    "10:hugetlb:/kubepods/fedcba9876543210fedcba9876543210fedcba9876543210fedcba9876543210".toList
    "/kubepods/".toList
    "fedcba9876543210fedcba9876543210fedcba9876543210fedcba9876543210".toList
    (by decide) (by decide) (by decide) (by decide) rfl).1

/-- C17 (evaluation): a path that ends in a token followed by the character `X` and
`scope`, not by the literal suffix `.scope`, yields a non-empty result in both copies;
a path that ends in uppercase hexadecimal characters yields none. -/
theorem findContainerID_accepts_any_char_before_scope :
    Tracer.FindContainerID
        (fun _ => some ["1:name=systemd:/system.slice/docker-0123456789abcdef0123456789abcdef0123456789abcdef0123456789abcdefXscope".toList]) =
      "0123456789abcdef0123456789abcdef0123456789abcdef0123456789abcdefXscope".toList ∧
    Internal.FindContainerID
        (fun _ => some ["1:name=systemd:/system.slice/docker-0123456789abcdef0123456789abcdef0123456789abcdef0123456789abcdefXscope".toList])
        Internal.cgroupPath =
      "0123456789abcdef0123456789abcdef0123456789abcdef0123456789abcdefXscope".toList ∧
    Tracer.FindContainerID
        (fun _ => some ["1:name=systemd:/system.slice/docker-0123456789ABCDEF0123456789ABCDEF0123456789ABCDEF0123456789ABCDEF".toList]) =
      [] := by
  decide

/-- C19 (amended): a non-empty result of `FindContainerID` is a suffix of the path,
after the second colon, of one of the file's lines, hence of that line; a token that is
not at the end of the path of the only line is not returned; and when the path of the
first line ends in more than 64 hexadecimal characters and the line is shorter than
65536 bytes, the result is the last 64 of these characters; a line is taken without
its final carriage return, as the scanner hands it out. -/
theorem findContainerID_suffix (fs : FS) (path : String) :
    (Internal.FindContainerID fs path ≠ [] →
      ∃ lines line R, fs path = some lines ∧ line ∈ lines ∧ IsEntry (dropCR line) R ∧
        Internal.FindContainerID fs path <:+ R ∧
        Internal.FindContainerID fs path <:+ dropCR line) ∧
    (∀ line a t b, fs path = some [line] →
      FindStringSubmatch Internal.expLine (dropCR line) = [dropCR line, a ++ t ++ b] →
      isContainerID t = true → b ≠ [] → ¬ t <:+ a ++ t ++ b →
      Internal.FindContainerID fs path ≠ t) ∧
    (∀ line rest q h, fs path = some (line :: rest) →
      utf8Len line < maxScanTokenSize →
      FindStringSubmatch Internal.expLine (dropCR line) = [dropCR line, q ++ h] →
      (∀ c ∈ h, isHex c = true) → 64 < h.length →
      Internal.FindContainerID fs path = h.drop (h.length - 64)) := by
  refine ⟨?_, ?_, ?_⟩
  · intro hne
    unfold Internal.FindContainerID at hne ⊢
    cases hf : fs path with
    | none => rw [hf] at hne; exact absurd rfl hne
    | some lines =>
      rw [hf] at hne
      simp only [] at hne ⊢
      obtain ⟨x, hm, R, hR, hs⟩ := scanLoop_suffix (scanTokens lines) hne
      obtain ⟨line, hl, rfl⟩ := mem_scanTokens lines x hm
      have he := isEntry_of_linePath (dropCR line) R hR
      exact ⟨lines, line, R, rfl, hl, he, hs, hs.trans (isEntry_suffix _ R he)⟩
  · intro line a t b hf hli ht _ hns heq
    have hne : t ≠ [] := by
      intro h
      rw [h] at ht
      exact absurd ht (by decide)
    apply hns
    unfold Internal.FindContainerID at heq
    rw [hf] at heq
    simp only [] at heq
    rw [scanTokens_cons] at heq
    by_cases hlen : utf8Len line < maxScanTokenSize
    · rw [if_pos hlen] at heq
      rw [Internal.scanLoop_cons, linePath_of_submatch (dropCR line) _ hli] at heq
      simp only [] at heq
      by_cases hfs : firstSuffix endsID (a ++ t ++ b) = []
      · simp only [hfs, bne_self_eq_false, Bool.false_eq_true, if_false] at heq
        have h0 : Internal.scanLoop (scanTokens []) = [] := rfl
        rw [h0] at heq
        exact absurd heq.symm hne
      · have hb : (firstSuffix endsID (a ++ t ++ b) != []) = true := by simpa using hfs
        simp only [hb, if_true] at heq
        have hsuf := firstSuffix_suffix endsID (a ++ t ++ b)
        rw [heq] at hsuf
        exact hsuf
    · rw [if_neg hlen] at heq
      have h0 : Internal.scanLoop [] = [] := rfl
      rw [h0] at heq
      exact absurd heq.symm hne
  · intro line rest q h hf hlen hli hh hl
    have ht := isContainerID_last64 h hh hl
    have hne : h.drop (h.length - 64) ≠ [] := by
      intro hc
      rw [hc] at ht
      exact absurd ht (by decide)
    have hsplit : q ++ h = (q ++ h.take (h.length - 64)) ++ h.drop (h.length - 64) := by
      rw [List.append_assoc, List.take_append_drop]
    unfold Internal.FindContainerID
    rw [hf]
    simp only []
    rw [scanTokens_cons, if_pos hlen, Internal.scanLoop_cons,
      linePath_of_submatch (dropCR line) _ hli]
    simp only []
    rw [hsplit, firstSuffix_token _ ht]
    simp [hne]

/-- Witness of the amended C19: a token in the middle of the path of the only line is
not returned, and of a path ending in 70 hexadecimal characters the last 64 are
returned. -/
theorem findContainerID_suffix_witness :
    Internal.FindContainerID
      (fun _ => some ["1:cpu:/docker/0123456789abcdef0123456789abcdef0123456789abcdef0123456789abcdef/tail".toList])
      Internal.cgroupPath ≠
      "0123456789abcdef0123456789abcdef0123456789abcdef0123456789abcdef".toList ∧
    Internal.FindContainerID
      (fun _ => some ["1:cpu:/docker/aaaaaa0123456789abcdef0123456789abcdef0123456789abcdef0123456789abcdef".toList])
      Internal.cgroupPath =
      "0123456789abcdef0123456789abcdef0123456789abcdef0123456789abcdef".toList :=
  ⟨(findContainerID_suffix _ _).2.1
      "1:cpu:/docker/0123456789abcdef0123456789abcdef0123456789abcdef0123456789abcdef/tail".toList
      "/docker/".toList
      "0123456789abcdef0123456789abcdef0123456789abcdef0123456789abcdef".toList
      "/tail".toList rfl (by decide) (by decide) (by decide) (by decide),
    (findContainerID_suffix _ _).2.2
      "1:cpu:/docker/aaaaaa0123456789abcdef0123456789abcdef0123456789abcdef0123456789abcdef".toList
      [] "/docker/".toList
      "aaaaaa0123456789abcdef0123456789abcdef0123456789abcdef0123456789abcdef".toList
      rfl (by decide) (by decide) (by decide) (by decide)⟩

end MoreContainerClaims

/-! ## Counterexamples with a line beyond the buffer of the scanner -/

/-- C14 (counterexample): first, a line ending in `.scope` before a line whose path
ends in a token: the first line matches the line pattern, its path does not end in a
container-ID token, the second line matches and its path ends in a token, and
`FindContainerID` returns the match of the first line, not the token of the second.
Second, a line of 65536 letters `x`, which does not match the line pattern, before
the same second line: `FindContainerID` returns the empty string, not the token. -/
theorem findContainerID_first_line_with_token_not_returned :
    ((FindStringSubmatch Internal.expLine
      "1:name=systemd:/system.slice/docker-0123456789abcdef0123456789abcdef0123456789abcdef0123456789abcdef.scope".toList).length = 2 ∧
    endsInToken ((FindStringSubmatch Internal.expLine
      "1:name=systemd:/system.slice/docker-0123456789abcdef0123456789abcdef0123456789abcdef0123456789abcdef.scope".toList).getD 1 []) = false ∧
    FindStringSubmatch Internal.expLine
      "10:hugetlb:/kubepods/fedcba9876543210fedcba9876543210fedcba9876543210fedcba9876543210".toList =
      ["10:hugetlb:/kubepods/fedcba9876543210fedcba9876543210fedcba9876543210fedcba9876543210".toList,
        "/kubepods/".toList ++
          "fedcba9876543210fedcba9876543210fedcba9876543210fedcba9876543210".toList] ∧
    isContainerID "fedcba9876543210fedcba9876543210fedcba9876543210fedcba9876543210".toList
      = true ∧
    Internal.FindContainerID
      (fun _ => some
        ["1:name=systemd:/system.slice/docker-0123456789abcdef0123456789abcdef0123456789abcdef0123456789abcdef.scope".toList,
          "10:hugetlb:/kubepods/fedcba9876543210fedcba9876543210fedcba9876543210fedcba9876543210".toList])
      Internal.cgroupPath ≠
      "fedcba9876543210fedcba9876543210fedcba9876543210fedcba9876543210".toList) ∧
    FindStringSubmatch Internal.expLine (List.replicate 65536 'x') = [] ∧
    Internal.FindContainerID
      (fun _ => some
        [List.replicate 65536 'x',
          "10:hugetlb:/kubepods/fedcba9876543210fedcba9876543210fedcba9876543210fedcba9876543210".toList])
      Internal.cgroupPath = [] := by
  refine ⟨scope_line_before_token_line, ?_, ?_⟩
  · rw [Internal.FindStringSubmatch_expLine,
      linePath_no_digit _ (takeWhile_replicate_neg isDigit 'x' (by decide) 65536)]
  · exact findContainerID_too_long _ _ _ _ rfl (utf8Len_replicate_ge 65536 'x')

/-- C19 (counterexample): the only line is `1::/` followed by 65536 letters `a`; it
matches the line pattern and its path ends in more than 64 hexadecimal characters, but
the line does not fit in the buffer of the scanner and `FindContainerID` returns the
empty string, not the last 64 characters. -/
theorem findContainerID_long_hex_path_not_returned :
    FindStringSubmatch Internal.expLine
        (['1'] ++ ':' :: ([] ++ ':' :: (['/'] ++ List.replicate 65536 'a'))) =
      [['1'] ++ ':' :: ([] ++ ':' :: (['/'] ++ List.replicate 65536 'a')),
        ['/'] ++ List.replicate 65536 'a'] ∧
    (∀ c ∈ List.replicate 65536 'a', isHex c = true) ∧
    64 < (List.replicate 65536 'a').length ∧
    (List.replicate 65536 'a').drop ((List.replicate 65536 'a').length - 64) =
      List.replicate 64 'a' ∧
    Internal.FindContainerID
      (fun _ => some [['1'] ++ ':' :: ([] ++ ':' :: (['/'] ++ List.replicate 65536 'a'))])
      Internal.cgroupPath = [] := by
  have hnl : '\n' ∉ ['/'] ++ List.replicate 65536 'a' := by
    intro h
    rcases List.mem_append.mp h with h | h
    · exact absurd h (by decide)
    · exact absurd (List.eq_of_mem_replicate h) (by decide)
  have hRne : ['/'] ++ List.replicate 65536 'a' ≠ [] := by
    intro h
    exact absurd (List.append_eq_nil.mp h).1 (by decide)
  refine ⟨?_, ?_, ?_, ?_, ?_⟩
  · rw [Internal.FindStringSubmatch_expLine,
      linePath_of_parts ['1'] [] (['/'] ++ List.replicate 65536 'a') (by decide) (by decide)
        (by decide) hRne hnl]
  · intro c hc
    rw [List.eq_of_mem_replicate hc]
    decide
  · rw [List.length_replicate]
    decide
  · rw [List.length_replicate, List.drop_replicate]
  · exact findContainerID_too_long _ _ _ [] rfl (utf8Len_entry_ge ['1'] [] ['/'] 65536 'a')
